import Mathlib

/-!
Verification of the transform-graph core of `trimesh/scene/transforms.py`.

The embedding models `EnforcedForest` (a directed graph with a parallel
undirected copy, enforcing a forest invariant on edge insertion) and
`TransformForest` (the facade with a path cache, a transform cache and a
version token).  Frames are an arbitrary type with decidable equality,
matrices are 4x4 rational matrices (exact arithmetic stands in for numpy
floats), and Python exceptions are modelled with `Except` / explicit
error components.  `update` returns a pair (state, optional error) so
that mutations the Python code performs before raising are observable,
exactly as in the source.
-/

set_option maxHeartbeats 1000000
set_option linter.unusedSectionVars false

namespace TrimeshTransforms

/-! ### Definitions: the shallow embedding of `scene/transforms.py` -/

/-- 4x4 homogeneous transformation matrices over exact rationals. -/
abbrev M4 : Type := Matrix (Fin 4) (Fin 4) ℚ

/-- Errors raised by the transform-graph code.  Each constructor names the
Python exception it models: `ambiguous` is the `ValueError` raised by
`kwargs_to_matrix`, `selfLoop` and `topologyConflict` the strict-mode
`ValueError`s of `EnforcedForest.add_edge`, `disconnected` the
`NetworkXNoPath` / `NodeNotFound` escaping `shortest_path_undirected`,
`noSuchEdge` the `ValueError` of `get_edge_data_direction`, `singular`
the `numpy.linalg.LinAlgError` of `np.linalg.inv`, and `malformedEdge`
the strict-mode `ValueError` of `from_edgelist`. -/
inductive Err : Type
  | ambiguous
  | selfLoop
  | topologyConflict
  | disconnected
  | noSuchEdge
  | singular
  | malformedEdge

deriving DecidableEq

deriving instance DecidableEq for Except

/-- The keyword arguments accepted by `TransformForest.update` and
`kwargs_to_matrix`.  A field that is `none` models an absent key. -/
structure Kwargs (γ : Type) where
  matrix : Option M4 := none
  quaternion : Option (Fin 4 → ℚ) := none
  axis : Option (Fin 3 → ℚ) := none
  angle : Option ℚ := none
  translation : Option (Fin 3 → ℚ) := none
  geometry : Option γ := none
  time : Option ℚ := none

deriving DecidableEq

/-- Modelled from the spec: `transformations.quaternion_matrix` is not under
`src/`; per the spec the Matrix Builder turns a unit quaternion
`[w, x, y, z]` into a 4x4 homogeneous rotation matrix.  This is the
standard polynomial rotation matrix of a unit quaternion. -/
def quaternion_matrix (q : Fin 4 → ℚ) : M4 :=
  let w := q 0
  let x := q 1
  let y := q 2
  let z := q 3
  !![1 - 2*(y*y + z*z), 2*(x*y - z*w), 2*(x*z + y*w), 0;
     2*(x*y + z*w), 1 - 2*(x*x + z*z), 2*(y*z - x*w), 0;
     2*(x*z - y*w), 2*(y*z + x*w), 1 - 2*(x*x + y*y), 0;
     0, 0, 0, 1]

/-- Modelled from the spec: `transformations.rotation_matrix` is not under
`src/`; it builds a rotation matrix from an angle and an axis.  Its value
involves `cos` and `sin` and is not expressible over the rationals, and no
claim depends on the value, so it is modelled as an unspecified total
function (here: the identity matrix). -/
def rotation_matrix (_angle : ℚ) (_axis : Fin 3 → ℚ) : M4 := 1

/-- The in-place update `matrix[0:3, 3] += translation` of
`kwargs_to_matrix`: the translation is added to the first three entries
of the last column. -/
def addTranslation (m : M4) (t : Fin 3 → ℚ) : M4 :=
  Matrix.of fun i j =>
    if h : (j : ℕ) = 3 ∧ (i : ℕ) < 3 then m i j + t ⟨(i : ℕ), h.2⟩ else m i j

/-- `kwargs_to_matrix` from `transforms.py`: an explicit matrix takes
precedence, then a quaternion, then an axis-angle pair; otherwise a
`ValueError` is raised.  A translation, if given, is added to the
resulting matrix's translation column. -/
def kwargs_to_matrix {γ : Type} (kw : Kwargs γ) : Except Err M4 :=
  match (match kw.matrix with
         | some m => Except.ok m
         | none =>
           match kw.quaternion with
           | some q => Except.ok (quaternion_matrix q)
           | none =>
             match kw.axis, kw.angle with
             | some ax, some an => Except.ok (rotation_matrix an ax)
             | _, _ => Except.error Err.ambiguous) with
  | Except.error e => Except.error e
  | Except.ok m =>
    Except.ok (match kw.translation with
               | some t => addTranslation m t
               | none => m)

/-- The attribute dictionary stored on each directed edge by
`TransformForest.update`: a matrix, a timestamp, and optionally a
geometry name. -/
structure EdgeAttr (γ : Type) where
  matrix : M4
  time : ℚ
  geometry : Option γ := none

deriving DecidableEq

/-- `EnforcedForest`: the directed graph (edge list with attributes, node
list, node attribute `geometry`) together with the parallel undirected
copy `_undirected` (edge list in stored orientation, node list).  The
node lists model networkx node sets, which survive edge removal. -/
structure EnforcedForest (ν γ : Type) where
  strict : Bool := false
  dedges : List (ν × ν × EdgeAttr γ) := []
  dnodes : List ν := []
  nodeGeom : List (ν × γ) := []
  uedges : List (ν × ν) := []
  unodes : List ν := []

deriving DecidableEq

variable {ν γ : Type} [DecidableEq ν] [DecidableEq γ]

/-- Membership of the undirected edge between `u` and `v` in an
undirected edge list (either stored orientation). -/
def hasUEdgeL (E : List (ν × ν)) (u v : ν) : Bool :=
  E.any fun e => decide (e = (u, v)) || decide (e = (v, u))

/-- Remove the undirected edge between `u` and `v` (both orientations)
from an undirected edge list: `Graph.remove_edges_from([[u,v],[v,u]])`. -/
def removeBothL (E : List (ν × ν)) (u v : ν) : List (ν × ν) :=
  E.filter fun e => !(decide (e = (u, v)) || decide (e = (v, u)))

/-- Remove the directed edges `(u,v)` and `(v,u)` from a directed edge
list: `DiGraph.remove_edges_from([[u,v],[v,u]])`. -/
def removeBothD (E : List (ν × ν × EdgeAttr γ)) (u v : ν) : List (ν × ν × EdgeAttr γ) :=
  E.filter fun e => !(decide (e.1 = u ∧ e.2.1 = v) || decide (e.1 = v ∧ e.2.1 = u))

/-- `EnforcedForest.remove_edges_from` with ebunch `[[u,v],[v,u]]`:
removes the edge in both directions from the directed storage and the
undirected copy.  Node lists are untouched (networkx semantics). -/
def remove_edges_both (ef : EnforcedForest ν γ) (u v : ν) : EnforcedForest ν γ :=
  { ef with dedges := removeBothD ef.dedges u v, uedges := removeBothL ef.uedges u v }

/-- Append a node to a networkx node list if not already present. -/
def addNodeList (l : List ν) (n : ν) : List ν :=
  if n ∈ l then l else l ++ [n]

/-- `DiGraph.add_edge(u, v, **attr)`: adds missing endpoints as nodes and
inserts the directed edge, overwriting the attributes in place when the
edge is already present. -/
def addDirectedEdge (ef : EnforcedForest ν γ) (u v : ν) (attr : EdgeAttr γ) :
    EnforcedForest ν γ :=
  { ef with
    dnodes := addNodeList (addNodeList ef.dnodes u) v,
    dedges :=
      if ef.dedges.any (fun e => decide (e.1 = u ∧ e.2.1 = v)) then
        ef.dedges.map fun e => if e.1 = u ∧ e.2.1 = v then (u, v, attr) else e
      else
        ef.dedges ++ [(u, v, attr)] }

/-- `Graph.add_edge(u, v)` on the undirected copy: adds missing endpoints
as nodes and the undirected edge if not already present. -/
def addUndirectedEdge (ef : EnforcedForest ν γ) (u v : ν) : EnforcedForest ν γ :=
  { ef with
    unodes := addNodeList (addNodeList ef.unodes u) v,
    uedges := if hasUEdgeL ef.uedges u v then ef.uedges else ef.uedges ++ [(u, v)] }

/-- The undirected neighbors of `u` in an undirected edge list. -/
def neighborsL (E : List (ν × ν)) (u : ν) : List ν :=
  E.filterMap fun e =>
    if e.1 = u then some e.2 else if e.2 = u then some e.1 else none

/-- Depth-first search for a simple path from `u` to `v` avoiding the
nodes in `visited`, with explicit fuel.  Models the path search of
`nx.shortest_path` on the undirected copy: on a forest the simple path
between two connected nodes is unique, so the traversal strategy does
not matter. -/
def dfs (E : List (ν × ν)) : ℕ → ν → ν → List ν → Option (List ν)
  | 0, _, _, _ => none
  | n + 1, u, v, visited =>
    if u = v then some [u]
    else
      (neighborsL E u).findSome? fun w =>
        if w ∈ visited then none
        else (dfs E n w v (u :: visited)).map fun p => u :: p

/-- `nx.shortest_path(undirected, u, v)`: raises `NodeNotFound` (here:
`none`) when either endpoint is not a node of the graph, returns `[u]`
when `u = v`, and otherwise searches for a path, `none` when
disconnected (`NetworkXNoPath`). -/
def findPathNX (E : List (ν × ν)) (nodes : List ν) (u v : ν) : Option (List ν) :=
  if u ∈ nodes ∧ v ∈ nodes then dfs E (E.length + 1) u v [] else none

/-- `EnforcedForest.add_edge`.  Returns the new state and the `changed`
flag, or the strict-mode error.  The lenient-mode branch for an existing
second path removes the first edge of that path (`disconnect_path`)
before inserting the new edge. -/
def add_edge (ef : EnforcedForest ν γ) (u v : ν) (attr : EdgeAttr γ) :
    Except Err (EnforcedForest ν γ × Bool) :=
  if u = v then
    if ef.strict then Except.error Err.selfLoop else Except.ok (ef, false)
  else
    match (if hasUEdgeL ef.uedges u v then
             Except.ok (remove_edges_both ef u v, false)
           else if ef.dnodes.isEmpty then
             Except.ok (ef, false)
           else
             match findPathNX ef.uedges ef.unodes u v with
             | some p =>
               if ef.strict then Except.error Err.topologyConflict
               else
                 match p with
                 | p0 :: p1 :: _ => Except.ok (remove_edges_both ef p0 p1, true)
                 | _ => Except.ok (ef, true)
             | none => Except.ok (ef, false)) with
    | Except.error e => Except.error e
    | Except.ok (ef1, changed) =>
      Except.ok (addDirectedEdge (addUndirectedEdge ef1 u v) u v attr, changed)

/-- Lookup of the attribute dictionary of the directed edge `(u, v)`. -/
def lookupD (ef : EnforcedForest ν γ) (u v : ν) : Option (EdgeAttr γ) :=
  (ef.dedges.find? fun e => decide (e.1 = u ∧ e.2.1 = v)).map fun e => e.2.2

/-- `EnforcedForest.get_edge_data_direction`: the stored attributes of
the edge between `u` and `v` together with `1` if it is stored as
`u → v` and `-1` if as `v → u`; `ValueError` when neither exists. -/
def get_edge_data_direction (ef : EnforcedForest ν γ) (u v : ν) :
    Except Err (EdgeAttr γ × Int) :=
  match lookupD ef u v with
  | some d => Except.ok (d, 1)
  | none =>
    match lookupD ef v u with
    | some d => Except.ok (d, -1)
    | none => Except.error Err.noSuchEdge

def det3 (a b c d e f g h i : ℚ) : ℚ := a*(e*i - f*h) - b*(d*i - f*g) + c*(d*h - e*g)

def det4 (m : M4) : ℚ :=
  m 0 0 * det3 (m 1 1) (m 1 2) (m 1 3) (m 2 1) (m 2 2) (m 2 3) (m 3 1) (m 3 2) (m 3 3) - m 0 1 * det3 (m 1 0) (m 1 2) (m 1 3) (m 2 0) (m 2 2) (m 2 3) (m 3 0) (m 3 2) (m 3 3) + m 0 2 * det3 (m 1 0) (m 1 1) (m 1 3) (m 2 0) (m 2 1) (m 2 3) (m 3 0) (m 3 1) (m 3 3) - m 0 3 * det3 (m 1 0) (m 1 1) (m 1 2) (m 2 0) (m 2 1) (m 2 2) (m 3 0) (m 3 1) (m 3 2)

def adj4 (m : M4) : M4 :=
  !![det3 (m 1 1) (m 1 2) (m 1 3) (m 2 1) (m 2 2) (m 2 3) (m 3 1) (m 3 2) (m 3 3), -det3 (m 0 1) (m 0 2) (m 0 3) (m 2 1) (m 2 2) (m 2 3) (m 3 1) (m 3 2) (m 3 3), det3 (m 0 1) (m 0 2) (m 0 3) (m 1 1) (m 1 2) (m 1 3) (m 3 1) (m 3 2) (m 3 3), -det3 (m 0 1) (m 0 2) (m 0 3) (m 1 1) (m 1 2) (m 1 3) (m 2 1) (m 2 2) (m 2 3);
     -det3 (m 1 0) (m 1 2) (m 1 3) (m 2 0) (m 2 2) (m 2 3) (m 3 0) (m 3 2) (m 3 3), det3 (m 0 0) (m 0 2) (m 0 3) (m 2 0) (m 2 2) (m 2 3) (m 3 0) (m 3 2) (m 3 3), -det3 (m 0 0) (m 0 2) (m 0 3) (m 1 0) (m 1 2) (m 1 3) (m 3 0) (m 3 2) (m 3 3), det3 (m 0 0) (m 0 2) (m 0 3) (m 1 0) (m 1 2) (m 1 3) (m 2 0) (m 2 2) (m 2 3);
     det3 (m 1 0) (m 1 1) (m 1 3) (m 2 0) (m 2 1) (m 2 3) (m 3 0) (m 3 1) (m 3 3), -det3 (m 0 0) (m 0 1) (m 0 3) (m 2 0) (m 2 1) (m 2 3) (m 3 0) (m 3 1) (m 3 3), det3 (m 0 0) (m 0 1) (m 0 3) (m 1 0) (m 1 1) (m 1 3) (m 3 0) (m 3 1) (m 3 3), -det3 (m 0 0) (m 0 1) (m 0 3) (m 1 0) (m 1 1) (m 1 3) (m 2 0) (m 2 1) (m 2 3);
     -det3 (m 1 0) (m 1 1) (m 1 2) (m 2 0) (m 2 1) (m 2 2) (m 3 0) (m 3 1) (m 3 2), det3 (m 0 0) (m 0 1) (m 0 2) (m 2 0) (m 2 1) (m 2 2) (m 3 0) (m 3 1) (m 3 2), -det3 (m 0 0) (m 0 1) (m 0 2) (m 1 0) (m 1 1) (m 1 2) (m 3 0) (m 3 1) (m 3 2), det3 (m 0 0) (m 0 1) (m 0 2) (m 1 0) (m 1 1) (m 1 2) (m 2 0) (m 2 1) (m 2 2)]

/-- `np.linalg.inv` under exact arithmetic: fails on a singular matrix
(`LinAlgError`), otherwise returns the inverse, computed through the
explicit cofactor expansion `det4` / `adj4` above (proved below to be
the determinant and the adjugate, so the result is the matrix
inverse). -/
def mInvE (m : M4) : Except Err M4 :=
  if det4 m = 0 then Except.error Err.singular
  else Except.ok ((det4 m)⁻¹ • adj4 m)

/-- The lookup of the node attribute `geometry`. -/
def nodeGeomOf (ef : EnforcedForest ν γ) (n : ν) : Option γ :=
  (ef.nodeGeom.find? fun p => decide (p.1 = n)).map fun p => p.2

/-- The consecutive pairs of a node list, as iterated by the edge-walking
loop of `TransformForest.get`. -/
def pairsOf : List ν → List (ν × ν)
  | a :: b :: rest => (a, b) :: pairsOf (b :: rest)
  | _ => []

/-- One step of the edge-walking loop of `get`: the matrix contributed by
the path step `(u, v)`, inverted when traversed against the stored
direction. -/
def edgeMat (ef : EnforcedForest ν γ) (e : ν × ν) : Except Err M4 :=
  match get_edge_data_direction ef e.1 e.2 with
  | Except.error err => Except.error err
  | Except.ok (d, dir) => if dir < 0 then mInvE d.matrix else Except.ok d.matrix

/-- The composition of the matrices collected along a path, with the
source's exact case split: no matrices gives `np.eye(4)`, a single
matrix is returned as is, and longer lists are chained with the matrix
product.  Modelled from the spec: `util.multi_dot` is not under `src/`;
per the spec it computes the chained matrix product, whose grouping is
irrelevant under exact arithmetic. -/
def composeT : List M4 → M4
  | [] => 1
  | [m] => m
  | m :: rest => m * composeT rest

/-- The matrices collected along a list of path steps, first error
first, as in the loop of `get`. -/
def collectE (ef : EnforcedForest ν γ) : List (ν × ν) → Except Err (List M4)
  | [] => Except.ok []
  | e :: rest =>
    match edgeMat ef e with
    | Except.error err => Except.error err
    | Except.ok m =>
      match collectE ef rest with
      | Except.error err => Except.error err
      | Except.ok ms => Except.ok (m :: ms)

/-- `TransformForest`: the forest plus the base frame, the path cache
`_paths`, the version token `_updated` (a fresh random string in the
source, modelled as a counter that is bumped where the source draws a
fresh string) and the transform cache `_cache`.  Modelled from the spec:
`caching.Cache` is not under `src/`; per the spec the Transform Cache is
a memo table cleared on every mutation, which is modelled as an
association list. -/
structure TransformForest (ν γ : Type) where
  transforms : EnforcedForest ν γ := {}
  base_frame : ν
  paths : List ((ν × ν) × List ν) := []
  updated : ℕ := 0
  cache : List ((ν × ν) × (M4 × Option γ)) := []

deriving DecidableEq

/-- A fresh `TransformForest` with the given base frame. -/
def freshTF (base : ν) : TransformForest ν γ := { base_frame := base }

/-- Association-list lookup for the caches. -/
def lookupA {α β : Type} [DecidableEq α] (l : List (α × β)) (k : α) : Option β :=
  (l.find? fun p => decide (p.1 = k)).map fun p => p.2

/-- `nx.set_node_attributes(..., values={n: g})`: sets the node
attribute, silently skipping nodes that are not in the graph. -/
def setNodeGeom (ef : EnforcedForest ν γ) (n : ν) (g : γ) : EnforcedForest ν γ :=
  if n ∈ ef.dnodes then
    { ef with nodeGeom := (ef.nodeGeom.filter fun p => !decide (p.1 = n)) ++ [(n, g)] }
  else ef

/-- `TransformForest.update`.  Faithfully to the source, the version
token is bumped and the transform cache cleared *before* kwargs are
validated, so a failing call still returns the partially mutated state
together with the error. -/
def update (s : TransformForest ν γ) (now : ℚ) (frame_to : ν) (frame_from : Option ν)
    (kw : Kwargs γ) : TransformForest ν γ × Option Err :=
  let s1 := { s with updated := s.updated + 1, cache := [] }
  let ff := frame_from.getD s.base_frame
  match kwargs_to_matrix kw with
  | Except.error e => (s1, some e)
  | Except.ok m =>
    let attr : EdgeAttr γ := { matrix := m, time := now, geometry := kw.geometry }
    match add_edge s1.transforms ff frame_to attr with
    | Except.error e => (s1, some e)
    | Except.ok (ef, changed) =>
      let ef1 := match kw.geometry with
                 | some g => setNodeGeom ef frame_to g
                 | none => ef
      let s2 := { s1 with transforms := ef1 }
      (if changed then { s2 with paths := [] } else s2, none)

/-- `TransformForest._get_path`: cached path lookup, storing a freshly
computed path; raises when the frames are not connected. -/
def getPathM (s : TransformForest ν γ) (ffrom fto : ν) :
    Except Err (List ν × TransformForest ν γ) :=
  match lookupA s.paths (ffrom, fto) with
  | some p => Except.ok (p, s)
  | none =>
    match findPathNX s.transforms.uedges s.transforms.unodes ffrom fto with
    | none => Except.error Err.disconnected
    | some p => Except.ok (p, { s with paths := s.paths ++ [((ffrom, fto), p)] })

/-- `TransformForest.get`.  On a transform-cache hit the stored pair is
returned unchanged; otherwise the path is resolved, the edge matrices
are collected (inverting those traversed against the stored direction)
and composed with `composeT`, and the result is stored in the transform
cache. -/
def get (s : TransformForest ν γ) (frame_to : ν) (frame_from : Option ν) :
    Except Err ((M4 × Option γ) × TransformForest ν γ) :=
  let ff := frame_from.getD s.base_frame
  let key := (ff, frame_to)
  match lookupA s.cache key with
  | some r => Except.ok (r, s)
  | none =>
    match getPathM s ff frame_to with
    | Except.error e => Except.error e
    | Except.ok (path, s1) =>
      match collectE s1.transforms (pairsOf path) with
      | Except.error e => Except.error e
      | Except.ok ms =>
        let r := (composeT ms, nodeGeomOf s1.transforms frame_to)
        Except.ok (r, { s1 with cache := s1.cache ++ [(key, r)] })

/-- The value component of `get` (composed matrix and geometry). -/
def getVal (s : TransformForest ν γ) (frame_to : ν) (frame_from : Option ν) :
    Except Err (M4 × Option γ) :=
  (get s frame_to frame_from).map fun r => r.1

/-- An edge-list entry as consumed by `from_edgelist`: a well-formed
triple `(node_from, node_to, attributes)`, a two-element entry
`(node_from, node_to)`, or a tuple of any other arity (`bad`). -/
inductive Entry (ν γ : Type) : Type
  | triple (a b : ν) (attr : Kwargs γ)
  | pair (a b : ν)
  | bad (arity : ℕ)

deriving DecidableEq

/-- `TransformForest.to_edgelist`: exports every directed edge with its
matrix and timestamp, copying the node attribute `geometry` of the
target node onto the exported attributes when present. -/
def to_edgelist (s : TransformForest ν γ) : List (Entry ν γ) :=
  s.transforms.dedges.map fun e =>
    Entry.triple e.1 e.2.1
      { matrix := some e.2.2.matrix,
        time := some e.2.2.time,
        geometry :=
          match nodeGeomOf s.transforms e.2.1 with
          | some g => some g
          | none => e.2.2.geometry }

/-- `TransformForest.from_edgelist`: replays entries through `update` in
order; a raised error stops the replay (leaving the updates so far
applied, as in the source).  Malformed entries raise `ValueError` in
strict mode and are skipped otherwise. -/
def from_edgelist (s : TransformForest ν γ) (now : ℚ) :
    List (Entry ν γ) → Bool → TransformForest ν γ × Option Err
  | [], _ => (s, none)
  | Entry.triple a b kw :: rest, strictFlag =>
    match update s now b (some a) kw with
    | (s1, some e) => (s1, some e)
    | (s1, none) => from_edgelist s1 now rest strictFlag
  | Entry.pair a b :: rest, strictFlag =>
    match update s now b (some a) {} with
    | (s1, some e) => (s1, some e)
    | (s1, none) => from_edgelist s1 now rest strictFlag
  | Entry.bad _ :: rest, strictFlag =>
    if strictFlag then (s, some Err.malformedEdge)
    else from_edgelist s now rest strictFlag

/-! ### The undirected view as a `SimpleGraph`, and node-list walks -/
/-- The unordered pair of the endpoints of a stored edge. -/
def sPair (e : ν × ν) : Sym2 ν := Sym2.mk e

/-- The unordered endpoint pairs of an undirected edge list. -/
def pairList (E : List (ν × ν)) : List (Sym2 ν) := E.map sPair

/-- The unordered endpoint pairs of a directed edge list. -/
def pairListD (E : List (ν × ν × EdgeAttr γ)) : List (Sym2 ν) :=
  E.map fun e => Sym2.mk (e.1, e.2.1)

/-- The simple graph spanned by an edge list viewed as undirected. -/
def usim (E : List (ν × ν)) : SimpleGraph ν :=
  SimpleGraph.fromEdgeSet { z : Sym2 ν | z ∈ pairList E }

/-- A walk of a simple graph recorded as its list of visited nodes, the
shape returned by `nx.shortest_path`. -/
inductive GWalk (G : SimpleGraph ν) : ν → ν → List ν → Prop
  | single (v : ν) : GWalk G v v [v]
  | cons {u w v : ν} {p : List ν} (h : G.Adj u w) (hp : GWalk G w v (w :: p)) :
      GWalk G u v (u :: w :: p)

/-! ### Correctness of the path search -/
/-- No stored edge is a self loop. -/
def NSL (E : List (ν × ν)) : Prop := ∀ e ∈ E, e.1 ≠ e.2

/-! ### An executable forest check -/
/-- Executable reachability check on the undirected view. -/
def reachableB (E : List (ν × ν)) (u v : ν) : Bool :=
  (dfs E (E.length + 1) u v []).isSome

/-- Executable forest check: no self loops and every edge is a bridge. -/
def forestB (E : List (ν × ν)) : Bool :=
  E.all fun e => decide (e.1 ≠ e.2) && !reachableB (removeBothL E e.1 e.2) e.1 e.2

/-- Structural invariants of reachable `EnforcedForest` states: no self
loops, at most one stored edge per unordered pair, the undirected copy
mirrors the directed edge set, node lists agree, edges live on known
nodes, no node is isolated, and the undirected view is a forest. -/
structure EFInv (ef : EnforcedForest ν γ) : Prop where
  nslD : ∀ e ∈ ef.dedges, e.1 ≠ e.2.1
  nslU : NSL ef.uedges
  nodupD : (pairListD ef.dedges).Nodup
  nodupU : (pairList ef.uedges).Nodup
  sync : ∀ z : Sym2 ν, z ∈ pairListD ef.dedges ↔ z ∈ pairList ef.uedges
  nodesSync : ∀ n : ν, n ∈ ef.dnodes ↔ n ∈ ef.unodes
  endsU : ∀ e ∈ ef.uedges, e.1 ∈ ef.unodes ∧ e.2 ∈ ef.unodes
  noIso : ∀ n ∈ ef.unodes, ∃ e ∈ ef.uedges, n = e.1 ∨ n = e.2
  acyclic : (usim ef.uedges).IsAcyclic

/-! ### Claim C1: the forest invariant -/
/-- The `EnforcedForest` states produced by a sequence of `add_edge`
calls starting from a fresh lenient-mode forest (the way
`TransformForest` constructs and uses it). -/
inductive BuiltByAdds : EnforcedForest ν γ → Prop
  | init : BuiltByAdds { strict := false }
  | step {ef ef2 : EnforcedForest ν γ} {u v : ν} {attr : EdgeAttr γ} {c : Bool} :
      BuiltByAdds ef → add_edge ef u v attr = Except.ok (ef2, c) → BuiltByAdds ef2

/-- The directed edge set of the forest, as an undirected edge list. -/
def dpairs (ef : EnforcedForest ν γ) : List (ν × ν) :=
  ef.dedges.map fun e => (e.1, e.2.1)

/-- A concrete attribute used by witnesses. -/
def attrW : EdgeAttr ℕ := { matrix := 1, time := 0 }

/-- The state reached from a lenient `add_edge` call, for witnesses. -/
def addOk (ef : EnforcedForest ℕ ℕ) (u v : ℕ) : EnforcedForest ℕ ℕ :=
  match add_edge ef u v attrW with
  | Except.ok r => r.1
  | Except.error _ => ef

/-- A concrete three-call forest: edges 0-1, 1-2, then 2-0, the last of
which triggers the conflict-resolution branch. -/
def c1a : EnforcedForest ℕ ℕ := addOk { strict := false } 0 1

def c1b : EnforcedForest ℕ ℕ := addOk c1a 1 2

def c1w : EnforcedForest ℕ ℕ := addOk c1b 2 0

/-! ### Executable invariant check, and the cache-free reading of `get` -/
/-- Executable check of the `EnforcedForest` structural invariants. -/
def EFInvB (ef : EnforcedForest ν γ) : Bool :=
  ef.dedges.all (fun e => decide (e.1 ≠ e.2.1)) &&
  ef.uedges.all (fun e => decide (e.1 ≠ e.2)) &&
  decide (pairListD ef.dedges).Nodup &&
  decide (pairList ef.uedges).Nodup &&
  (pairListD ef.dedges).all (fun z => decide (z ∈ pairList ef.uedges)) &&
  (pairList ef.uedges).all (fun z => decide (z ∈ pairListD ef.dedges)) &&
  ef.dnodes.all (fun n => decide (n ∈ ef.unodes)) &&
  ef.unodes.all (fun n => decide (n ∈ ef.dnodes)) &&
  ef.uedges.all (fun e => decide (e.1 ∈ ef.unodes) && decide (e.2 ∈ ef.unodes)) &&
  ef.unodes.all (fun n => ef.uedges.any fun e => decide (n = e.1) || decide (n = e.2)) &&
  forestB ef.uedges

/-- The cache-free reading of `get`: resolve the path, collect and
compose the edge matrices.  On coherent states `get` returns exactly
this (see `get_eq_computeGet`). -/
def computeGet (ef : EnforcedForest ν γ) (ffrom fto : ν) : Except Err (M4 × Option γ) :=
  match findPathNX ef.uedges ef.unodes ffrom fto with
  | none => Except.error Err.disconnected
  | some path =>
    match collectE ef (pairsOf path) with
    | Except.error e => Except.error e
    | Except.ok ms => Except.ok (composeT ms, nodeGeomOf ef fto)

/-- Coherence of a `TransformForest` state: the forest invariants hold,
every memoized path is what the path search returns, and every transform
cache entry is what recomputation returns.  These hold for states built
through the public interface: `update` clears the transform cache (and
the path cache on topology change) and `get` only memoizes freshly
computed results. -/
structure TFInv (s : TransformForest ν γ) : Prop where
  efInv : EFInv s.transforms
  pathsOK : ∀ (k : ν × ν) (p : List ν), (k, p) ∈ s.paths →
    findPathNX s.transforms.uedges s.transforms.unodes k.1 k.2 = some p
  cacheOK : ∀ (k : ν × ν) (r : M4 × Option γ), (k, r) ∈ s.cache →
    computeGet s.transforms k.1 k.2 = Except.ok r

/-- The identity-matrix keyword argument used by concrete scenarios. -/
def kwI : Kwargs ℕ := { matrix := some 1 }

/-- The C2 scenario: `world = 0`, `A = 1`, `B = 2`; build `world → A`,
then `A → B`, then call `update (B, world, identity)`. -/
def c2s1 : TransformForest ℕ ℕ := (update (freshTF 0) 0 1 none kwI).1

def c2s2 : TransformForest ℕ ℕ := (update c2s1 0 2 (some 1) kwI).1

def c2s3 : TransformForest ℕ ℕ := (update c2s2 0 2 (some 0) kwI).1

/-- A concrete state with a stored edge `0 → 1`, for the C3 witness. -/
def c3s : TransformForest ℕ ℕ := (update (freshTF 0) 0 1 none kwI).1

/-- A state with a populated transform cache, built through the public
interface: one `update` then one `get`. -/
def c4s : TransformForest ℕ ℕ :=
  match get c2s1 1 none with
  | Except.ok r => r.2
  | Except.error _ => c2s1

/-- A keyword-argument set supplying every transform description at
once. -/
def kwAll : Kwargs ℕ :=
  { matrix := some 1, quaternion := some fun _ => 1, axis := some fun _ => 1,
    angle := some 2, translation := none }

/-! ### C6: the export / replay round trip -/
/-- The geometry exported by `to_edgelist` for a directed edge: the node
geometry of the target node when present, else the edge attribute. -/
def gExp (s : TransformForest ν γ) (e : ν × ν × EdgeAttr γ) : Option γ :=
  match nodeGeomOf s.transforms e.2.1 with
  | some g => some g
  | none => e.2.2.geometry

/-- The keyword arguments carried by an exported edge-list entry. -/
def expKw (s : TransformForest ν γ) (e : ν × ν × EdgeAttr γ) : Kwargs γ :=
  { matrix := some e.2.2.matrix, time := some e.2.2.time, geometry := gExp s e }

/-- The edge-list entry exported by `to_edgelist` for a directed edge. -/
def exportEntry (s : TransformForest ν γ) (e : ν × ν × EdgeAttr γ) : Entry ν γ :=
  Entry.triple e.1 e.2.1 (expKw s e)

/-- The directed edge list rebuilt by replaying the export: same
endpoints and matrices, timestamps replaced by the replay time, geometry
as exported. -/
def mapAttr (s : TransformForest ν γ) (now : ℚ) (l : List (ν × ν × EdgeAttr γ)) :
    List (ν × ν × EdgeAttr γ) :=
  l.map fun e => (e.1, e.2.1, { matrix := e.2.2.matrix, time := now, geometry := gExp s e })

/-- The node list accumulated by replaying a list of directed edges. -/
def nodesFold : List (ν × ν × EdgeAttr γ) → List ν → List ν
  | [], acc => acc
  | e :: rest, acc => nodesFold rest (addNodeList (addNodeList acc e.1) e.2.1)

/-- The C6 scenario: geometry `7` is attached to node `2` by an update
along the edge `1 → 2`; a later conflicting update removes that edge
(the first edge of the path `2, 1, 3`), leaving node `2` with geometry
but no incoming edge to carry it through the export. -/
def c6s1 : TransformForest ℕ ℕ :=
  (update (freshTF 0) 0 2 (some 1) { matrix := some 1, geometry := some 7 }).1

def c6s2 : TransformForest ℕ ℕ := (update c6s1 0 3 (some 1) kwI).1

def c6s3 : TransformForest ℕ ℕ := (update c6s2 0 3 (some 2) kwI).1

/-- The forest rebuilt from `c6s3`'s exported edge list. -/
def c6r : TransformForest ℕ ℕ :=
  (from_edgelist (freshTF 0) 1 (to_edgelist c6s3) true).1

/-! ### Theorems -/

theorem mem_pairList {E : List (ν × ν)} {x y : ν} :
    Sym2.mk (x, y) ∈ pairList E ↔ (x, y) ∈ E ∨ (y, x) ∈ E := by
  simp only [pairList, sPair, List.mem_map]
  constructor
  · rintro ⟨e, he, hmk⟩
    rcases Sym2.mk_eq_mk_iff.mp hmk with h | h
    · left; rwa [← h]
    · right; rw [Prod.ext_iff] at h; cases e; simp only [Prod.swap] at h
      simpa [h.1, h.2] using he
  · rintro (h | h)
    · exact ⟨(x, y), h, rfl⟩
    · exact ⟨(y, x), h, Sym2.eq_swap⟩

theorem usim_adj {E : List (ν × ν)} {x y : ν} :
    (usim E).Adj x y ↔ ((x, y) ∈ E ∨ (y, x) ∈ E) ∧ x ≠ y := by
  rw [usim, SimpleGraph.fromEdgeSet_adj]
  exact and_congr_left fun _ => (by exact mem_pairList)

theorem GWalk.shape {G : SimpleGraph ν} {u v : ν} {p : List ν} (h : GWalk G u v p) :
    ∃ q, p = u :: q := by
  cases h
  · exact ⟨[], rfl⟩
  · exact ⟨_, rfl⟩

theorem GWalk.concat {G : SimpleGraph ν} {u v x : ν} {p : List ν}
    (h : GWalk G u v p) (ha : G.Adj v x) : GWalk G u x (p ++ [x]) := by
  induction h with
  | single v => exact GWalk.cons ha (GWalk.single x)
  | cons hadj hp ih => exact GWalk.cons hadj (ih ha)

theorem GWalk.reverse {G : SimpleGraph ν} {u v : ν} {p : List ν}
    (h : GWalk G u v p) : GWalk G v u p.reverse := by
  induction h with
  | single v => exact GWalk.single v
  | cons hadj hp ih =>
    have := ih.concat hadj.symm
    simpa using this

theorem GWalk.mono {G H : SimpleGraph ν} (hle : G ≤ H) {u v : ν} {p : List ν}
    (h : GWalk G u v p) : GWalk H u v p := by
  induction h with
  | single v => exact GWalk.single v
  | cons hadj hp ih => exact GWalk.cons (hle hadj) ih

theorem GWalk.exists_walk {G : SimpleGraph ν} {u v : ν} {p : List ν}
    (h : GWalk G u v p) : ∃ w : G.Walk u v, w.support = p := by
  induction h with
  | single v => exact ⟨SimpleGraph.Walk.nil, by simp⟩
  | cons hadj hp ih =>
    obtain ⟨w, hw⟩ := ih
    exact ⟨SimpleGraph.Walk.cons hadj w, by simp [hw]⟩

theorem gwalk_of_walk {G : SimpleGraph ν} {u v : ν} (w : G.Walk u v) :
    GWalk G u v w.support := by
  induction w with
  | nil => simpa using GWalk.single _
  | cons hadj p ih =>
    obtain ⟨q, hq⟩ := ih.shape
    rw [SimpleGraph.Walk.support_cons, hq]
    exact GWalk.cons hadj (hq ▸ ih)

theorem GWalk.reachable {G : SimpleGraph ν} {u v : ν} {p : List ν}
    (h : GWalk G u v p) : G.Reachable u v := by
  obtain ⟨w, _⟩ := h.exists_walk
  exact ⟨w⟩

theorem exists_simple_gwalk_of_reachable {G : SimpleGraph ν} {u v : ν}
    (h : G.Reachable u v) : ∃ p, GWalk G u v p ∧ p.Nodup := by
  obtain ⟨w⟩ := h
  refine ⟨(w.toPath : G.Walk u v).support, gwalk_of_walk _, ?_⟩
  exact (SimpleGraph.Walk.isPath_def _).mp (w.toPath : G.Path u v).property

theorem gwalk_unique {G : SimpleGraph ν} (hG : G.IsAcyclic) {u v : ν} {p q : List ν}
    (hp : GWalk G u v p) (hpn : p.Nodup) (hq : GWalk G u v q) (hqn : q.Nodup) : p = q := by
  obtain ⟨wp, hwp⟩ := hp.exists_walk
  obtain ⟨wq, hwq⟩ := hq.exists_walk
  have hp1 : wp.IsPath := (SimpleGraph.Walk.isPath_def wp).mpr (by rw [hwp]; exact hpn)
  have hq1 : wq.IsPath := (SimpleGraph.Walk.isPath_def wq).mpr (by rw [hwq]; exact hqn)
  have heq : (⟨wp, hp1⟩ : G.Path u v) = ⟨wq, hq1⟩ := hG.path_unique _ _
  have : wp = wq := congrArg Subtype.val heq
  rw [← hwp, ← hwq, this]

theorem gwalk_length_le {E : List (ν × ν)} {u v : ν} {p : List ν}
    (h : GWalk (usim E) u v p) (hn : p.Nodup) : p.length ≤ E.length + 1 := by
  obtain ⟨w, hw⟩ := h.exists_walk
  have hpath : w.IsPath := (SimpleGraph.Walk.isPath_def w).mpr (by rw [hw]; exact hn)
  have hnd : w.edges.Nodup := hpath.isTrail.edges_nodup
  have hsub : w.edges ⊆ pairList E := by
    intro e he
    have h1 := SimpleGraph.Walk.edges_subset_edgeSet w he
    rw [usim, SimpleGraph.edgeSet_fromEdgeSet] at h1
    exact h1.1
  have hlen : w.edges.length ≤ (pairList E).length := (hnd.subperm hsub).length_le
  have h2 : (pairList E).length = E.length := by simp [pairList]
  have h3 : p.length = w.length + 1 := by rw [← hw, SimpleGraph.Walk.length_support]
  have h4 : w.edges.length = w.length := SimpleGraph.Walk.length_edges w
  omega

theorem mem_neighborsL {E : List (ν × ν)} {u w : ν} :
    w ∈ neighborsL E u ↔ (u, w) ∈ E ∨ (w, u) ∈ E := by
  simp only [neighborsL, List.mem_filterMap]
  constructor
  · rintro ⟨⟨a, b⟩, he, hcond⟩
    dsimp only at hcond
    split at hcond
    · rename_i h1
      obtain rfl := Option.some.inj hcond
      subst h1
      exact Or.inl he
    · split at hcond
      · rename_i h1 h2
        obtain rfl := Option.some.inj hcond
        subst h2
        exact Or.inr he
      · exact absurd hcond (by simp)
  · rintro (h | h)
    · exact ⟨(u, w), h, by simp⟩
    · refine ⟨(w, u), h, ?_⟩
      by_cases hwu : w = u
      · subst hwu; simp
      · simp [hwu]

theorem adj_of_mem_neighborsL {E : List (ν × ν)} {u w : ν}
    (hnsl : NSL E) (hw : w ∈ neighborsL E u) : (usim E).Adj u w := by
  rcases mem_neighborsL.mp hw with h | h
  · exact usim_adj.mpr ⟨Or.inl h, hnsl _ h⟩
  · exact usim_adj.mpr ⟨Or.inr h, fun he => (hnsl _ h) (by rw [he])⟩

theorem mem_neighborsL_of_adj {E : List (ν × ν)} {u w : ν}
    (h : (usim E).Adj u w) : w ∈ neighborsL E u :=
  mem_neighborsL.mpr (usim_adj.mp h).1

theorem dfs_sound {E : List (ν × ν)} (hnsl : NSL E) :
    ∀ (fuel : ℕ) (u v : ν) (visited : List ν) (p : List ν),
      u ∉ visited → dfs E fuel u v visited = some p →
      GWalk (usim E) u v p ∧ p.Nodup ∧ ∀ x ∈ p, x ∉ visited := by
  intro fuel
  induction fuel with
  | zero => intro u v visited p _ h; simp [dfs] at h
  | succ n ih =>
    intro u v visited p hu h
    rw [dfs] at h
    by_cases huv : u = v
    · subst huv
      rw [if_pos rfl] at h
      obtain rfl := Option.some.inj h
      exact ⟨GWalk.single u, by simp, by simpa using hu⟩
    · rw [if_neg huv] at h
      obtain ⟨w, hwmem, hw⟩ := List.exists_of_findSome?_eq_some h
      by_cases hvis : w ∈ visited
      · simp [hvis] at hw
      · rw [if_neg hvis] at hw
        obtain ⟨q, hq, hqp⟩ := Option.map_eq_some'.mp hw
        subst hqp
        have hwu : w ∉ u :: visited := by
          intro hmem
          rcases List.mem_cons.mp hmem with h1 | h1
          · exact (adj_of_mem_neighborsL hnsl hwmem).ne (h1 ▸ rfl)
          · exact hvis h1
        obtain ⟨hgw, hnd, havoid⟩ := ih w v (u :: visited) q hwu hq
        obtain ⟨q1, hq1⟩ := hgw.shape
        subst hq1
        refine ⟨GWalk.cons (adj_of_mem_neighborsL hnsl hwmem) hgw, ?_, ?_⟩
        · refine List.nodup_cons.mpr ⟨?_, hnd⟩
          intro hmem
          exact (havoid u hmem) (List.mem_cons_self u visited)
        · intro x hx
          rcases List.mem_cons.mp hx with h1 | h1
          · subst h1; exact hu
          · intro hxv
            exact (havoid x h1) (List.mem_cons_of_mem u hxv)

theorem dfs_complete {E : List (ν × ν)} :
    ∀ (p : List ν) (fuel : ℕ) (u v : ν) (visited : List ν),
      GWalk (usim E) u v p → p.Nodup → (∀ x ∈ p, x ∉ visited) →
      p.length ≤ fuel → (dfs E fuel u v visited).isSome := by
  intro p
  induction p with
  | nil => intro fuel u v visited hgw _ _ _; rcases hgw.shape with ⟨q, hq⟩; simp at hq
  | cons a rest ih =>
    intro fuel u v visited hgw hnd havoid hlen
    obtain ⟨q, hq⟩ := hgw.shape
    injection hq with h1 h2
    subst h1
    subst h2
    cases fuel with
    | zero => simp at hlen
    | succ n =>
      rw [dfs]
      by_cases huv : a = v
      · simp [huv]
      · rw [if_neg huv]
        cases hgw with
        | single => exact absurd rfl huv
        | cons hadj htail =>
          rename_i w q2
          rw [List.findSome?_isSome_iff]
          refine ⟨w, mem_neighborsL_of_adj hadj, ?_⟩
          have hwnv : w ∉ visited := havoid w (by simp)
          rw [if_neg hwnv]
          rw [Option.isSome_map']
          refine ih n w v (a :: visited) htail (List.nodup_cons.mp hnd).2 ?_ ?_
          · intro x hx hmem
            rcases List.mem_cons.mp hmem with h1 | h1
            · exact (List.nodup_cons.mp hnd).1 (h1 ▸ hx)
            · exact (havoid x (List.mem_cons_of_mem a hx)) h1
          · simpa using Nat.le_of_succ_le_succ hlen

theorem findPathNX_sound {E : List (ν × ν)} {nodes : List ν} {u v : ν} {p : List ν}
    (hnsl : NSL E) (h : findPathNX E nodes u v = some p) :
    GWalk (usim E) u v p ∧ p.Nodup ∧ u ∈ nodes ∧ v ∈ nodes := by
  rw [findPathNX] at h
  by_cases hm : u ∈ nodes ∧ v ∈ nodes
  · rw [if_pos hm] at h
    obtain ⟨hgw, hnd, _⟩ := dfs_sound hnsl (E.length + 1) u v [] p (by simp) h
    exact ⟨hgw, hnd, hm⟩
  · rw [if_neg hm] at h
    exact absurd h (by simp)

theorem findPathNX_isSome {E : List (ν × ν)} {nodes : List ν} {u v : ν}
    (hu : u ∈ nodes) (hv : v ∈ nodes) (hr : (usim E).Reachable u v) :
    (findPathNX E nodes u v).isSome := by
  rw [findPathNX, if_pos ⟨hu, hv⟩]
  obtain ⟨p, hgw, hnd⟩ := exists_simple_gwalk_of_reachable hr
  exact dfs_complete p (E.length + 1) u v [] hgw hnd (by simp) (gwalk_length_le hgw hnd)

theorem findPathNX_none_disconnected {E : List (ν × ν)} {nodes : List ν} {u v : ν}
    (hu : u ∈ nodes) (hv : v ∈ nodes) (h : findPathNX E nodes u v = none) :
    ¬(usim E).Reachable u v := by
  intro hr
  have := findPathNX_isSome hu hv hr
  rw [h] at this
  simp at this

/-- On a forest the search result is determined by the graph and the
endpoint membership alone: same undirected graph, same node sets, same
result. -/
theorem findPathNX_ext {E F : List (ν × ν)} {nodesE nodesF : List ν} {u v : ν}
    (hnslE : NSL E) (hnslF : NSL F) (husim : usim E = usim F)
    (hacy : (usim E).IsAcyclic)
    (hnodes : ∀ n, n ∈ nodesE ↔ n ∈ nodesF) :
    findPathNX E nodesE u v = findPathNX F nodesF u v := by
  by_cases hm : u ∈ nodesE ∧ v ∈ nodesE
  · have hmF : u ∈ nodesF ∧ v ∈ nodesF := ⟨(hnodes u).mp hm.1, (hnodes v).mp hm.2⟩
    cases hE : findPathNX E nodesE u v with
    | some p =>
      obtain ⟨hgw, hnd, _⟩ := findPathNX_sound hnslE hE
      have hr : (usim F).Reachable u v := husim ▸ hgw.reachable
      cases hF : findPathNX F nodesF u v with
      | some q =>
        obtain ⟨hgwq, hndq, _⟩ := findPathNX_sound hnslF hF
        have : p = q :=
          gwalk_unique hacy hgw hnd (by rw [husim]; exact hgwq) hndq
        rw [this]
      | none => exact absurd (findPathNX_none_disconnected hmF.1 hmF.2 hF) (by simp [hr])
    | none =>
      have hnr := findPathNX_none_disconnected hm.1 hm.2 hE
      cases hF : findPathNX F nodesF u v with
      | some q =>
        obtain ⟨hgwq, _, _⟩ := findPathNX_sound hnslF hF
        exact absurd (husim ▸ hgwq.reachable) hnr
      | none => rfl
  · have hmF : ¬(u ∈ nodesF ∧ v ∈ nodesF) := by
      intro hc
      exact hm ⟨(hnodes u).mpr hc.1, (hnodes v).mpr hc.2⟩
    rw [findPathNX, findPathNX, if_neg hm, if_neg hmF]

/-! ### Graph surgery: edge removal and insertion on the undirected view -/
theorem mem_removeBothL {E : List (ν × ν)} {u v : ν} {e : ν × ν} :
    e ∈ removeBothL E u v ↔ e ∈ E ∧ e ≠ (u, v) ∧ e ≠ (v, u) := by
  simp [removeBothL, List.mem_filter, not_or]

theorem usim_removeBothL {E : List (ν × ν)} {u v : ν} :
    usim (removeBothL E u v) =
      usim E \ SimpleGraph.fromEdgeSet {Sym2.mk (u, v)} := by
  ext x y
  rw [SimpleGraph.sdiff_adj, usim_adj, usim_adj, SimpleGraph.fromEdgeSet_adj]
  simp only [mem_removeBothL, Set.mem_singleton_iff, Sym2.eq_iff, Prod.mk.injEq, ne_eq,
    Prod.ext_iff]
  tauto

theorem usim_append {E : List (ν × ν)} {u v : ν} :
    usim (E ++ [(u, v)]) = usim E ⊔ SimpleGraph.fromEdgeSet {Sym2.mk (u, v)} := by
  ext x y
  rw [SimpleGraph.sup_adj, usim_adj, usim_adj, SimpleGraph.fromEdgeSet_adj]
  simp only [List.mem_append, List.mem_singleton, Set.mem_singleton_iff, Sym2.eq_iff,
    Prod.mk.injEq, ne_eq, Prod.ext_iff]
  tauto

/-! ### Acyclicity lemmas -/
theorem isAcyclic_mono {G H : SimpleGraph ν} (hle : G ≤ H) (hH : H.IsAcyclic) :
    G.IsAcyclic := by
  intro v c hc
  exact hH (c.mapLe hle) (hc.mapLe hle)

theorem reach_decomp {G : SimpleGraph ν} {a b x y : ν}
    (h : (G ⊔ SimpleGraph.fromEdgeSet {Sym2.mk (a, b)}).Reachable x y) :
    G.Reachable x y ∨ (G.Reachable x a ∧ G.Reachable b y) ∨
      (G.Reachable x b ∧ G.Reachable a y) := by
  obtain ⟨w⟩ := h
  induction w with
  | nil => exact Or.inl (SimpleGraph.Reachable.refl _)
  | cons hadj p ih =>
    rcases (SimpleGraph.sup_adj _ _ _ _).mp hadj with hG | hF
    · rcases ih with h1 | ⟨h1, h2⟩ | ⟨h1, h2⟩
      · exact Or.inl (hG.reachable.trans h1)
      · exact Or.inr (Or.inl ⟨hG.reachable.trans h1, h2⟩)
      · exact Or.inr (Or.inr ⟨hG.reachable.trans h1, h2⟩)
    · rw [SimpleGraph.fromEdgeSet_adj, Set.mem_singleton_iff] at hF
      rcases Sym2.eq_iff.mp hF.1 with ⟨rfl, rfl⟩ | ⟨rfl, rfl⟩
      · rcases ih with h1 | ⟨h1, h2⟩ | ⟨h1, h2⟩
        · exact Or.inr (Or.inl ⟨SimpleGraph.Reachable.refl _, h1⟩)
        · exact Or.inr (Or.inl ⟨SimpleGraph.Reachable.refl _, h2⟩)
        · exact Or.inl h2
      · rcases ih with h1 | ⟨h1, h2⟩ | ⟨h1, h2⟩
        · exact Or.inr (Or.inr ⟨SimpleGraph.Reachable.refl _, h1⟩)
        · exact Or.inl h2
        · exact Or.inr (Or.inr ⟨SimpleGraph.Reachable.refl _, h2⟩)

theorem isAcyclic_sup_edge {G : SimpleGraph ν} {a b : ν}
    (hG : G.IsAcyclic) (hnr : ¬G.Reachable a b) :
    (G ⊔ SimpleGraph.fromEdgeSet {Sym2.mk (a, b)}).IsAcyclic := by
  rw [SimpleGraph.isAcyclic_iff_forall_adj_isBridge]
  intro x y hxy
  rcases (SimpleGraph.sup_adj _ _ _ _).mp hxy with hGxy | hF
  · have hbr : G.IsBridge (Sym2.mk (x, y)) :=
      (SimpleGraph.isAcyclic_iff_forall_adj_isBridge.mp hG) hGxy
    rw [SimpleGraph.isBridge_iff] at hbr
    rw [SimpleGraph.isBridge_iff]
    refine ⟨hxy, ?_⟩
    intro hreach
    have hne : Sym2.mk (a, b) ≠ Sym2.mk (x, y) := by
      intro he
      rcases Sym2.eq_iff.mp he with ⟨h1, h2⟩ | ⟨h1, h2⟩
      · exact hnr (h1 ▸ h2 ▸ hGxy.reachable)
      · exact hnr (h2 ▸ h1 ▸ hGxy.symm.reachable)
    have hFd : (SimpleGraph.fromEdgeSet {Sym2.mk (a, b)} : SimpleGraph ν) \
        SimpleGraph.fromEdgeSet {Sym2.mk (x, y)} =
        SimpleGraph.fromEdgeSet {Sym2.mk (a, b)} := by
      ext p q
      rw [SimpleGraph.sdiff_adj, SimpleGraph.fromEdgeSet_adj, SimpleGraph.fromEdgeSet_adj]
      constructor
      · exact fun h => h.1
      · intro h
        refine ⟨h, ?_⟩
        intro hc
        rw [Set.mem_singleton_iff] at hc
        have h1 := h.1
        rw [Set.mem_singleton_iff] at h1
        exact hne (h1 ▸ hc.1)
    have hsplit : (G ⊔ SimpleGraph.fromEdgeSet {Sym2.mk (a, b)}) \
        SimpleGraph.fromEdgeSet {Sym2.mk (x, y)} =
        (G \ SimpleGraph.fromEdgeSet {Sym2.mk (x, y)}) ⊔
          SimpleGraph.fromEdgeSet {Sym2.mk (a, b)} := by
      rw [sup_sdiff, hFd]
    rw [hsplit] at hreach
    rcases reach_decomp hreach with h1 | ⟨h1, h2⟩ | ⟨h1, h2⟩
    · exact hbr.2 h1
    · exact hnr (((h1.mono sdiff_le).symm.trans hGxy.reachable).trans
        (h2.mono sdiff_le).symm)
    · exact hnr (((h2.mono sdiff_le).trans hGxy.symm.reachable).trans
        (h1.mono sdiff_le))
  · rw [SimpleGraph.fromEdgeSet_adj, Set.mem_singleton_iff] at hF
    rw [SimpleGraph.isBridge_iff]
    refine ⟨hxy, ?_⟩
    intro hreach
    rw [hF.1, sup_sdiff_right_self] at hreach
    have hxyG : G.Reachable x y := (hreach.mono sdiff_le)
    rcases Sym2.eq_iff.mp hF.1 with ⟨h1, h2⟩ | ⟨h1, h2⟩
    · exact hnr (h1 ▸ h2 ▸ hxyG)
    · exact hnr (h2 ▸ h1 ▸ hxyG.symm)

theorem not_reach_of_no_incident {E : List (ν × ν)} {u v : ν}
    (h : ∀ e ∈ E, e.1 ≠ u ∧ e.2 ≠ u) (huv : u ≠ v) : ¬(usim E).Reachable u v := by
  intro hr
  obtain ⟨w⟩ := hr
  cases w with
  | nil => exact huv rfl
  | cons hadj p =>
    rcases usim_adj.mp hadj with ⟨(hm | hm), _⟩
    · exact (h _ hm).1 rfl
    · exact (h _ hm).2 rfl

theorem reachableB_false {E : List (ν × ν)} {u v : ν}
    (h : reachableB E u v = false) : ¬(usim E).Reachable u v := by
  intro hr
  obtain ⟨p, hgw, hnd⟩ := exists_simple_gwalk_of_reachable hr
  have hs := dfs_complete p (E.length + 1) u v [] hgw hnd (by simp) (gwalk_length_le hgw hnd)
  rw [reachableB] at h
  rw [h] at hs
  simp at hs

theorem forestB_sound {E : List (ν × ν)} (h : forestB E = true) :
    (usim E).IsAcyclic := by
  rw [SimpleGraph.isAcyclic_iff_forall_adj_isBridge]
  intro x y hxy
  rcases usim_adj.mp hxy with ⟨hm, hne⟩
  rw [forestB, List.all_eq_true] at h
  rcases hm with hm | hm
  · have he := h (x, y) hm
    simp only [Bool.and_eq_true, decide_eq_true_eq, Bool.not_eq_true'] at he
    rw [SimpleGraph.isBridge_iff]
    refine ⟨hxy, ?_⟩
    intro hr
    refine reachableB_false he.2 ?_
    rw [usim_removeBothL]
    exact hr
  · have he := h (y, x) hm
    simp only [Bool.and_eq_true, decide_eq_true_eq, Bool.not_eq_true'] at he
    rw [SimpleGraph.isBridge_iff]
    refine ⟨hxy, ?_⟩
    intro hr
    refine reachableB_false he.2 ?_
    have hswap : (Sym2.mk (y, x) : Sym2 ν) = Sym2.mk (x, y) := Sym2.eq_swap
    rw [usim_removeBothL, hswap]
    exact hr.symm

/-! ### The forest invariant of `EnforcedForest` states -/
theorem hasUEdgeL_iff {E : List (ν × ν)} {u v : ν} :
    hasUEdgeL E u v = true ↔ Sym2.mk (u, v) ∈ pairList E := by
  rw [mem_pairList]
  simp only [hasUEdgeL, List.any_eq_true, Bool.or_eq_true, decide_eq_true_eq]
  constructor
  · rintro ⟨e, he, (rfl | rfl)⟩
    · exact Or.inl he
    · exact Or.inr he
  · rintro (h | h)
    · exact ⟨(u, v), h, Or.inl rfl⟩
    · exact ⟨(v, u), h, Or.inr rfl⟩

theorem mem_addNodeList {l : List ν} {m n : ν} :
    n ∈ addNodeList l m ↔ n ∈ l ∨ n = m := by
  by_cases h : m ∈ l
  · rw [addNodeList, if_pos h]
    constructor
    · exact Or.inl
    · rintro (h1 | rfl)
      · exact h1
      · exact h
  · rw [addNodeList, if_neg h]
    simp

theorem mem_pairList_removeBothL {E : List (ν × ν)} {u v : ν} {z : Sym2 ν} :
    z ∈ pairList (removeBothL E u v) ↔ z ∈ pairList E ∧ z ≠ Sym2.mk (u, v) := by
  simp only [pairList, sPair, List.mem_map]
  constructor
  · rintro ⟨e, he, rfl⟩
    obtain ⟨h1, h2, h3⟩ := mem_removeBothL.mp he
    refine ⟨⟨e, h1, rfl⟩, ?_⟩
    intro hc
    rcases Sym2.mk_eq_mk_iff.mp hc with h4 | h4
    · exact h2 h4
    · cases e; cases h4; exact h3 rfl
  · rintro ⟨⟨e, he, rfl⟩, hne⟩
    refine ⟨e, mem_removeBothL.mpr ⟨he, ?_, ?_⟩, rfl⟩
    · rintro rfl; exact hne rfl
    · rintro rfl; exact hne Sym2.eq_swap

theorem mem_pairListD_removeBothD {E : List (ν × ν × EdgeAttr γ)} {u v : ν} {z : Sym2 ν} :
    z ∈ pairListD (removeBothD E u v) ↔ z ∈ pairListD E ∧ z ≠ Sym2.mk (u, v) := by
  simp only [pairListD, List.mem_map, removeBothD, List.mem_filter, Bool.not_eq_true',
    Bool.or_eq_false_iff, decide_eq_false_iff_not]
  constructor
  · rintro ⟨e, ⟨he, h2, h3⟩, rfl⟩
    refine ⟨⟨e, he, rfl⟩, ?_⟩
    intro hc
    rcases Sym2.mk_eq_mk_iff.mp hc with h4 | h4
    · rw [Prod.ext_iff] at h4
      exact h2 ⟨h4.1, h4.2⟩
    · rw [Prod.ext_iff] at h4
      exact h3 ⟨h4.1, h4.2⟩
  · rintro ⟨⟨e, he, rfl⟩, hne⟩
    refine ⟨e, ⟨he, ?_, ?_⟩, rfl⟩
    · rintro ⟨h1, h2⟩
      exact hne (by rw [h1, h2])
    · rintro ⟨h1, h2⟩
      refine hne ?_
      rw [h1, h2]
      exact Sym2.eq_swap

theorem pairList_removeBothL_sublist {E : List (ν × ν)} {u v : ν} :
    (pairList (removeBothL E u v)).Sublist (pairList E) :=
  (List.filter_sublist E).map sPair

theorem pairListD_removeBothD_sublist {E : List (ν × ν × EdgeAttr γ)} {u v : ν} :
    (pairListD (removeBothD E u v)).Sublist (pairListD E) :=
  (List.filter_sublist E).map _

theorem insert_eq {ef : EnforcedForest ν γ} {u v : ν} {attr : EdgeAttr γ}
    (hd : Sym2.mk (u, v) ∉ pairListD ef.dedges)
    (hu : Sym2.mk (u, v) ∉ pairList ef.uedges) :
    addDirectedEdge (addUndirectedEdge ef u v) u v attr =
      { ef with
        dedges := ef.dedges ++ [(u, v, attr)],
        dnodes := addNodeList (addNodeList ef.dnodes u) v,
        uedges := ef.uedges ++ [(u, v)],
        unodes := addNodeList (addNodeList ef.unodes u) v } := by
  have h1 : hasUEdgeL ef.uedges u v = false := by
    rw [← Bool.not_eq_true, hasUEdgeL_iff]
    exact hu
  have h2 : (ef.dedges.any fun e => decide (e.1 = u ∧ e.2.1 = v)) = false := by
    rw [← Bool.not_eq_true, List.any_eq_true]
    rintro ⟨e, he, hc⟩
    rw [decide_eq_true_eq] at hc
    exact hd (List.mem_map.mpr ⟨e, he, by rw [hc.1, hc.2]⟩)
  rcases ef with ⟨st, de, dn, ng, ue, un⟩
  simp only [addUndirectedEdge, addDirectedEdge] at *
  rw [h1, h2]
  simp

theorem EFInv_insert {ef : EnforcedForest ν γ} {u v : ν} {attr : EdgeAttr γ}
    (huv : u ≠ v)
    (nslD : ∀ e ∈ ef.dedges, e.1 ≠ e.2.1)
    (nslU : NSL ef.uedges)
    (nodupD : (pairListD ef.dedges).Nodup)
    (nodupU : (pairList ef.uedges).Nodup)
    (sync : ∀ z : Sym2 ν, z ∈ pairListD ef.dedges ↔ z ∈ pairList ef.uedges)
    (nodesSync : ∀ n : ν, n ∈ ef.dnodes ↔ n ∈ ef.unodes)
    (endsU : ∀ e ∈ ef.uedges, e.1 ∈ ef.unodes ∧ e.2 ∈ ef.unodes)
    (noIsoW : ∀ n ∈ ef.unodes, n ≠ u → n ≠ v → ∃ e ∈ ef.uedges, n = e.1 ∨ n = e.2)
    (acyclic : (usim ef.uedges).IsAcyclic)
    (habs : Sym2.mk (u, v) ∉ pairList ef.uedges)
    (hnr : ¬(usim ef.uedges).Reachable u v) :
    EFInv (addDirectedEdge (addUndirectedEdge ef u v) u v attr) := by
  have hd : Sym2.mk (u, v) ∉ pairListD ef.dedges := fun hc => habs ((sync _).mp hc)
  rw [insert_eq hd habs]
  constructor
  · intro e he
    rcases List.mem_append.mp he with h1 | h1
    · exact nslD e h1
    · rw [List.mem_singleton] at h1
      rw [h1]
      exact huv
  · intro e he
    rcases List.mem_append.mp he with h1 | h1
    · exact nslU e h1
    · rw [List.mem_singleton] at h1
      rw [h1]
      exact huv
  · rw [pairListD, List.map_append, List.nodup_append]
    refine ⟨nodupD, by simp, ?_⟩
    intro z hz hmem
    simp only [List.map_cons, List.map_nil, List.mem_singleton] at hmem
    exact hd (hmem ▸ hz)
  · rw [pairList, List.map_append, List.nodup_append]
    refine ⟨nodupU, by simp, ?_⟩
    intro z hz hmem
    simp only [List.map_cons, List.map_nil, List.mem_singleton, sPair] at hmem
    exact habs (hmem ▸ hz)
  · intro z
    rw [pairListD, pairList, List.map_append, List.map_append, List.mem_append,
      List.mem_append]
    constructor
    · rintro (h1 | h1)
      · exact Or.inl ((sync z).mp h1)
      · exact Or.inr (by simpa [sPair] using h1)
    · rintro (h1 | h1)
      · exact Or.inl ((sync z).mpr h1)
      · exact Or.inr (by simpa [sPair] using h1)
  · intro n
    rw [mem_addNodeList, mem_addNodeList, mem_addNodeList, mem_addNodeList,
      nodesSync n]
  · intro e he
    rcases List.mem_append.mp he with h1 | h1
    · obtain ⟨ha, hb⟩ := endsU e h1
      exact ⟨mem_addNodeList.mpr (Or.inl (mem_addNodeList.mpr (Or.inl ha))),
        mem_addNodeList.mpr (Or.inl (mem_addNodeList.mpr (Or.inl hb)))⟩
    · rw [List.mem_singleton] at h1
      rw [h1]
      exact ⟨mem_addNodeList.mpr (Or.inl (mem_addNodeList.mpr (Or.inr rfl))),
        mem_addNodeList.mpr (Or.inr rfl)⟩
  · intro n hn
    by_cases hnu : n = u
    · exact ⟨(u, v), List.mem_append.mpr (Or.inr (List.mem_singleton.mpr rfl)),
        Or.inl hnu⟩
    · by_cases hnv : n = v
      · exact ⟨(u, v), List.mem_append.mpr (Or.inr (List.mem_singleton.mpr rfl)),
          Or.inr hnv⟩
      · have hn1 : n ∈ ef.unodes := by
          rcases mem_addNodeList.mp hn with h1 | h1
          · rcases mem_addNodeList.mp h1 with h2 | h2
            · exact h2
            · exact absurd h2 hnu
          · exact absurd h1 hnv
        obtain ⟨e, he, hor⟩ := noIsoW n hn1 hnu hnv
        exact ⟨e, List.mem_append.mpr (Or.inl he), hor⟩
  · rw [usim_append]
    exact isAcyclic_sup_edge acyclic hnr

theorem usim_nil : usim ([] : List (ν × ν)) = ⊥ := by
  ext x y
  simp [usim_adj]

theorem EFInv_empty : EFInv ({ strict := false } : EnforcedForest ν γ) := by
  refine ⟨?_, ?_, ?_, ?_, ?_, ?_, ?_, ?_, ?_⟩
  · intro e he; simp at he
  · intro e he; simp at he
  · simp [pairListD]
  · simp [pairList]
  · intro z; simp [pairListD, pairList]
  · intro n; simp
  · intro e he; simp at he
  · intro n hn; simp at hn
  · rw [show ({ strict := false } : EnforcedForest ν γ).uedges = [] from rfl, usim_nil]
    exact SimpleGraph.isAcyclic_bot

/-- The common step of the two edge-removing branches of `add_edge`:
after removing the edge between `a` and `b`, insert the fresh edge
`u → v`.  The branch-specific facts (absence, disconnection, and no new
isolated node) are hypotheses. -/
theorem EFInv_remove_insert {ef : EnforcedForest ν γ} {a b u v : ν} {attr : EdgeAttr γ}
    (hinv : EFInv ef) (huv : u ≠ v)
    (habs2 : Sym2.mk (u, v) ∉ pairList (removeBothL ef.uedges a b))
    (hnr2 : ¬(usim (removeBothL ef.uedges a b)).Reachable u v)
    (hnoIso2 : ∀ n ∈ ef.unodes, n ≠ u → n ≠ v →
      ∃ e ∈ removeBothL ef.uedges a b, n = e.1 ∨ n = e.2) :
    EFInv (addDirectedEdge (addUndirectedEdge (remove_edges_both ef a b) u v) u v attr) := by
  apply EFInv_insert huv
  · intro e he
    exact hinv.nslD e (List.mem_filter.mp he).1
  · intro e he
    exact hinv.nslU e (mem_removeBothL.mp he).1
  · exact hinv.nodupD.sublist pairListD_removeBothD_sublist
  · exact hinv.nodupU.sublist pairList_removeBothL_sublist
  · intro z
    rw [show (remove_edges_both ef a b).dedges = removeBothD ef.dedges a b from rfl,
      show (remove_edges_both ef a b).uedges = removeBothL ef.uedges a b from rfl,
      mem_pairListD_removeBothD, mem_pairList_removeBothL, hinv.sync z]
  · intro n
    exact hinv.nodesSync n
  · intro e he
    exact hinv.endsU e (mem_removeBothL.mp he).1
  · exact hnoIso2
  · rw [show (remove_edges_both ef a b).uedges = removeBothL ef.uedges a b from rfl,
      usim_removeBothL]
    exact isAcyclic_mono sdiff_le hinv.acyclic
  · exact habs2
  · exact hnr2

theorem add_edge_EFInv {ef ef2 : EnforcedForest ν γ} {u v : ν} {attr : EdgeAttr γ} {c : Bool}
    (hinv : EFInv ef) (h : add_edge ef u v attr = Except.ok (ef2, c)) : EFInv ef2 := by
  rw [add_edge] at h
  by_cases huv : u = v
  · rw [if_pos huv] at h
    by_cases hs : ef.strict
    · rw [if_pos hs] at h
      exact absurd h (by simp)
    · rw [if_neg hs] at h
      have h3 : ef = ef2 := (Prod.ext_iff.mp (Except.ok.inj h)).1
      exact h3 ▸ hinv
  · rw [if_neg huv] at h
    by_cases hhe : hasUEdgeL ef.uedges u v
    · -- replace branch: the existing edge between u and v is removed
      rw [if_pos hhe] at h
      injection h with h5
      injection h5 with h3 h4
      subst h3
      have hadj : (usim ef.uedges).Adj u v :=
        usim_adj.mpr ⟨mem_pairList.mp (hasUEdgeL_iff.mp hhe), huv⟩
      have hbr := (SimpleGraph.isAcyclic_iff_forall_adj_isBridge.mp hinv.acyclic) hadj
      refine EFInv_remove_insert hinv huv ?_ ?_ ?_
      · intro hc
        exact (mem_pairList_removeBothL.mp hc).2 rfl
      · rw [usim_removeBothL]
        exact (SimpleGraph.isBridge_iff.mp hbr).2
      · intro n hn hnu hnv
        obtain ⟨e, he, hor⟩ := hinv.noIso n hn
        refine ⟨e, mem_removeBothL.mpr ⟨he, ?_, ?_⟩, hor⟩
        · rintro rfl
          rcases hor with rfl | rfl
          · exact hnu rfl
          · exact hnv rfl
        · rintro rfl
          rcases hor with rfl | rfl
          · exact hnv rfl
          · exact hnu rfl
    · rw [if_neg hhe] at h
      have habs : Sym2.mk (u, v) ∉ pairList ef.uedges := by
        intro hc
        exact hhe (hasUEdgeL_iff.mpr hc)
      by_cases hemp : ef.dnodes.isEmpty
      · -- empty graph: plain insertion
        rw [if_pos hemp] at h
        injection h with h5
        injection h5 with h3 h4
        subst h3
        have hue : ∀ e ∈ ef.uedges, e.1 ≠ u ∧ e.2 ≠ u := by
          intro e he
          obtain ⟨h1, _⟩ := hinv.endsU e he
          have : e.1 ∈ ef.dnodes := (hinv.nodesSync e.1).mpr h1
          rw [List.isEmpty_iff.mp hemp] at this
          simp at this
        refine EFInv_insert huv hinv.nslD hinv.nslU hinv.nodupD hinv.nodupU hinv.sync
          hinv.nodesSync hinv.endsU (fun n hn _ _ => hinv.noIso n hn) hinv.acyclic habs ?_
        exact not_reach_of_no_incident hue huv
      · rw [if_neg hemp] at h
        cases hp : findPathNX ef.uedges ef.unodes u v with
        | none =>
          rw [hp] at h
          injection h with h5
          injection h5 with h3 h4
          subst h3
          refine EFInv_insert huv hinv.nslD hinv.nslU hinv.nodupD hinv.nodupU hinv.sync
            hinv.nodesSync hinv.endsU (fun n hn _ _ => hinv.noIso n hn) hinv.acyclic habs ?_
          by_cases hun : u ∈ ef.unodes
          · by_cases hvn : v ∈ ef.unodes
            · exact findPathNX_none_disconnected hun hvn hp
            · have hv : ∀ e ∈ ef.uedges, e.1 ≠ v ∧ e.2 ≠ v := by
                intro e he
                obtain ⟨h1, h2⟩ := hinv.endsU e he
                exact ⟨fun hc => hvn (hc ▸ h1), fun hc => hvn (hc ▸ h2)⟩
              intro hr
              exact not_reach_of_no_incident hv (Ne.symm huv) hr.symm
          · have hu2 : ∀ e ∈ ef.uedges, e.1 ≠ u ∧ e.2 ≠ u := by
              intro e he
              obtain ⟨h1, h2⟩ := hinv.endsU e he
              exact ⟨fun hc => hun (hc ▸ h1), fun hc => hun (hc ▸ h2)⟩
            exact not_reach_of_no_incident hu2 huv
        | some p =>
          rw [hp] at h
          dsimp only at h
          by_cases hs : ef.strict
          · rw [if_pos hs] at h
            exact absurd h (by simp)
          · rw [if_neg hs] at h
            obtain ⟨hgw, hnd, hun, hvn⟩ := findPathNX_sound hinv.nslU hp
            obtain ⟨q, rfl⟩ := hgw.shape
            cases q with
            | nil =>
              cases hgw
              exact absurd rfl huv
            | cons p1 rest =>
              injection h with h5
              injection h5 with h3 h4
              subst h3
              cases hgw with
              | cons hadj htail =>
                have hup1 : u ≠ p1 := hadj.ne
                have hgw2 : GWalk (usim ef.uedges) u v (u :: p1 :: rest) :=
                  GWalk.cons hadj htail
                refine EFInv_remove_insert hinv huv ?_ ?_ ?_
                · intro hc
                  exact habs (mem_pairList_removeBothL.mp hc).1
                · -- removing the first path edge disconnects u from v
                  intro hr
                  rw [usim_removeBothL] at hr
                  obtain ⟨q2, hq2, hq2nd⟩ := exists_simple_gwalk_of_reachable hr
                  have hq2G : GWalk (usim ef.uedges) u v q2 := hq2.mono sdiff_le
                  have hqeq : q2 = u :: p1 :: rest :=
                    gwalk_unique hinv.acyclic hq2G hq2nd hgw2 hnd
                  rw [hqeq] at hq2
                  cases hq2 with
                  | cons hadj2 htail2 =>
                    rw [SimpleGraph.sdiff_adj] at hadj2
                    refine hadj2.2 ?_
                    rw [SimpleGraph.fromEdgeSet_adj]
                    exact ⟨Set.mem_singleton _, hup1⟩
                · intro n hn hnu hnv
                  obtain ⟨e, he, hor⟩ := hinv.noIso n hn
                  by_cases hsurv : e ≠ (u, p1) ∧ e ≠ (p1, u)
                  · exact ⟨e, mem_removeBothL.mpr ⟨he, hsurv.1, hsurv.2⟩, hor⟩
                  · -- the removed edge was n's only listed edge: n must be p1,
                    -- which keeps its second path edge
                    have hnp1 : n = p1 := by
                      rcases not_and_or.mp hsurv with hc | hc
                      · rw [not_not] at hc
                        rcases hor with rfl | rfl
                        · exact absurd (by rw [hc]) hnu
                        · rw [hc]
                      · rw [not_not] at hc
                        rcases hor with rfl | rfl
                        · rw [hc]
                        · exact absurd (by rw [hc]) hnu
                    subst hnp1
                    cases rest with
                    | nil =>
                      cases htail
                      exact absurd rfl hnv
                    | cons p2 rest2 =>
                      cases htail with
                      | cons hadj2 htail2 =>
                        have hmem : Sym2.mk (n, p2) ∈ pairList ef.uedges :=
                          mem_pairList.mpr (usim_adj.mp hadj2).1
                        obtain ⟨e2, he2, he2p⟩ := List.mem_map.mp hmem
                        have hnp2 : n ≠ p2 := hadj2.ne
                        have hup2 : u ≠ p2 := by
                          rintro rfl
                          simp at hnd
                        refine ⟨e2, mem_removeBothL.mpr ⟨he2, ?_, ?_⟩, ?_⟩
                        · rintro rfl
                          rcases Sym2.eq_iff.mp he2p with ⟨h4, h5⟩ | ⟨h4, h5⟩
                          · exact hup1 h4
                          · exact hup2 h4
                        · rintro rfl
                          rcases Sym2.eq_iff.mp he2p with ⟨h4, h5⟩ | ⟨h4, h5⟩
                          · exact hup2 h5
                          · exact hnp2 h4
                        · rcases Sym2.mk_eq_mk_iff.mp he2p with h4 | h4 <;> subst h4
                          · exact Or.inl rfl
                          · exact Or.inr rfl

theorem adj4_mul (m : M4) : adj4 m * m = det4 m • 1 := by
  ext i j
  fin_cases i <;> fin_cases j <;>
    simp [adj4, det4, det3, Matrix.mul_apply, Fin.sum_univ_four, Matrix.smul_apply,
      Matrix.one_apply] <;> ring

theorem mul_adj4 (m : M4) : m * adj4 m = det4 m • 1 := by
  ext i j
  fin_cases i <;> fin_cases j <;>
    simp [adj4, det4, det3, Matrix.mul_apply, Fin.sum_univ_four, Matrix.smul_apply,
      Matrix.one_apply] <;> ring

theorem det4_eq (m : M4) : det4 m = m.det := by
  rw [Matrix.det_succ_row_zero]
  simp [Fin.sum_univ_four, Matrix.det_fin_three, Matrix.submatrix_apply, Fin.succAbove,
    det4, det3, Fin.lt_def, show Fin.succ (2 : Fin 3) = (3 : Fin 4) from rfl,
    show Fin.succ (0 : Fin 3) = (1 : Fin 4) from rfl,
    show Fin.succ (1 : Fin 3) = (2 : Fin 4) from rfl,
    show ((3 : Fin 4) : ℕ) = 3 from rfl,
    show Fin.castSucc (2 : Fin 3) = (2 : Fin 4) from rfl]
  ring

theorem mInvE_ok {m n : M4} (h : mInvE m = Except.ok n) :
    IsUnit m.det ∧ n * m = 1 ∧ m * n = 1 ∧ n = m⁻¹ := by
  rw [mInvE] at h
  by_cases hd : det4 m = 0
  · rw [if_pos hd] at h
    exact absurd h (by simp)
  · rw [if_neg hd] at h
    obtain rfl := Except.ok.inj h
    have hdet : m.det ≠ 0 := by
      rw [← det4_eq]
      exact hd
    have h1 : ((det4 m)⁻¹ • adj4 m) * m = 1 := by
      rw [Matrix.smul_mul, adj4_mul, smul_smul, inv_mul_cancel₀ hd, one_smul]
    have h2 : m * ((det4 m)⁻¹ • adj4 m) = 1 := by
      rw [Matrix.mul_smul, mul_adj4, smul_smul, inv_mul_cancel₀ hd, one_smul]
    exact ⟨isUnit_iff_ne_zero.mpr hdet, h1, h2, (Matrix.inv_eq_left_inv h1).symm⟩

theorem mInvE_error_iff {m : M4} : mInvE m = Except.error Err.singular ↔ m.det = 0 := by
  rw [mInvE, ← det4_eq]
  by_cases hd : det4 m = 0
  · rw [if_pos hd]
    simp [hd]
  · rw [if_neg hd]
    simp [hd]

theorem composeT_eq_prod : ∀ ms : List M4, composeT ms = ms.prod
  | [] => rfl
  | [m] => by simp [show composeT [m] = m from rfl]
  | m :: m2 :: rest => by
    rw [show composeT (m :: m2 :: rest) = m * composeT (m2 :: rest) from rfl,
      composeT_eq_prod (m2 :: rest)]
    simp

theorem det4_one : det4 (1 : M4) = 1 := by
  norm_num [det4, det3, Matrix.one_apply, Fin.ext_iff,
    show ((0 : Fin 4) : ℕ) = 0 from rfl, show ((1 : Fin 4) : ℕ) = 1 from rfl,
    show ((2 : Fin 4) : ℕ) = 2 from rfl, show ((3 : Fin 4) : ℕ) = 3 from rfl]

theorem adj4_one : adj4 (1 : M4) = 1 := by
  ext i j
  fin_cases i <;> fin_cases j <;>
    norm_num [adj4, det3, Matrix.one_apply, Fin.ext_iff,
      show ((0 : Fin 4) : ℕ) = 0 from rfl, show ((1 : Fin 4) : ℕ) = 1 from rfl,
      show ((2 : Fin 4) : ℕ) = 2 from rfl, show ((3 : Fin 4) : ℕ) = 3 from rfl]

theorem mInvE_one : mInvE (1 : M4) = Except.ok 1 := by
  rw [mInvE, det4_one]
  norm_num [adj4_one]

theorem collectE_cons_ok {ef : EnforcedForest ν γ} {e : ν × ν} {rest : List (ν × ν)}
    {m : M4} {ms : List M4} (h1 : edgeMat ef e = Except.ok m)
    (h2 : collectE ef rest = Except.ok ms) :
    collectE ef (e :: rest) = Except.ok (m :: ms) := by
  rw [collectE, h1, h2]

theorem builtByAdds_EFInv {ef : EnforcedForest ν γ} (h : BuiltByAdds ef) : EFInv ef := by
  induction h with
  | init => exact EFInv_empty
  | step hb hs ih => exact add_edge_EFInv ih hs

theorem pairList_dpairs (ef : EnforcedForest ν γ) :
    pairList (dpairs ef) = pairListD ef.dedges := by
  simp [pairList, dpairs, pairListD, sPair, List.map_map]

theorem usim_dpairs_eq {ef : EnforcedForest ν γ} (hinv : EFInv ef) :
    usim (dpairs ef) = usim ef.uedges := by
  refine congrArg SimpleGraph.fromEdgeSet ?_
  ext z
  rw [Set.mem_setOf_eq, Set.mem_setOf_eq, pairList_dpairs]
  exact hinv.sync z

/-- C1: for every sequence of `add_edge` calls in lenient (non-strict)
mode, after each call the edge set viewed as undirected is a forest: it
contains no cycles (the undirected view is acyclic) and there is at most
one simple path between any two nodes. -/
theorem C1_forest_invariant {ef : EnforcedForest ν γ} (h : BuiltByAdds ef) :
    (usim (dpairs ef)).IsAcyclic ∧
      ∀ (a b : ν) (p q : (usim (dpairs ef)).Path a b), p = q := by
  have hinv := builtByAdds_EFInv h
  have hacy : (usim (dpairs ef)).IsAcyclic := by
    rw [usim_dpairs_eq hinv]
    exact hinv.acyclic
  exact ⟨hacy, fun a b p q => hacy.path_unique p q⟩

theorem C1_forest_invariant_witness : (usim (dpairs c1w)).IsAcyclic :=
  (C1_forest_invariant
    (BuiltByAdds.step
      (BuiltByAdds.step
        (BuiltByAdds.step BuiltByAdds.init
          (show add_edge { strict := false } 0 1 attrW = Except.ok (c1a, false) from rfl))
        (show add_edge c1a 1 2 attrW = Except.ok (c1b, false) from rfl))
      (show add_edge c1b 2 0 attrW = Except.ok (c1w, true) from rfl))).1

theorem EFInvB_sound {ef : EnforcedForest ν γ} (h : EFInvB ef = true) : EFInv ef := by
  rw [EFInvB] at h
  simp only [Bool.and_eq_true, List.all_eq_true, List.any_eq_true, decide_eq_true_eq,
    Bool.or_eq_true] at h
  obtain ⟨⟨⟨⟨⟨⟨⟨⟨⟨⟨h1, h2⟩, h3⟩, h4⟩, h5⟩, h6⟩, h7⟩, h8⟩, h9⟩, h10⟩, h11⟩ := h
  refine ⟨h1, h2, h3, h4, fun z => ⟨fun hz => h5 z hz, fun hz => h6 z hz⟩,
    fun n => ⟨fun hn => h7 n hn, fun hn => h8 n hn⟩,
    fun e he => (h9 e he), ?_, forestB_sound h11⟩
  intro n hn
  obtain ⟨e, he, hor⟩ := h10 n hn
  exact ⟨e, he, hor⟩

theorem lookupA_mem {α β : Type} [DecidableEq α] {l : List (α × β)} {k : α} {v : β}
    (h : lookupA l k = some v) : (k, v) ∈ l := by
  rw [lookupA] at h
  obtain ⟨p, hp, hpv⟩ := Option.map_eq_some'.mp h
  have hmem := List.mem_of_find?_eq_some hp
  have hpred := List.find?_some hp
  rw [decide_eq_true_eq] at hpred
  cases p with
  | mk a b =>
    subst hpred
    subst hpv
    exact hmem

theorem get_eq_computeGet {s : TransformForest ν γ}
    (hpaths : ∀ (k : ν × ν) (p : List ν), (k, p) ∈ s.paths →
      findPathNX s.transforms.uedges s.transforms.unodes k.1 k.2 = some p)
    (hcache : ∀ (k : ν × ν) (r : M4 × Option γ), (k, r) ∈ s.cache →
      computeGet s.transforms k.1 k.2 = Except.ok r)
    (ft : ν) (ffrom : Option ν) :
    getVal s ft ffrom = computeGet s.transforms (ffrom.getD s.base_frame) ft := by
  rw [getVal, get]
  cases hc : lookupA s.cache (ffrom.getD s.base_frame, ft) with
  | some r =>
    have hcg := hcache _ r (lookupA_mem hc)
    dsimp only
    rw [hcg]
    rfl
  | none =>
    dsimp only
    rw [getPathM]
    cases hp : lookupA s.paths (ffrom.getD s.base_frame, ft) with
    | some p =>
      have hfp := hpaths _ p (lookupA_mem hp)
      dsimp only
      rw [computeGet, hfp]
      dsimp only
      cases hce : collectE s.transforms (pairsOf p) with
      | error e => rfl
      | ok ms => rfl
    | none =>
      dsimp only
      rw [computeGet]
      cases hfp : findPathNX s.transforms.uedges s.transforms.unodes
          (ffrom.getD s.base_frame) ft with
      | none => rfl
      | some p =>
        dsimp only
        cases hce : collectE s.transforms (pairsOf p) with
        | error e => rfl
        | ok ms => rfl

/-! ### Claims about `update`, `kwargs_to_matrix`, `from_edgelist` and `get` -/
theorem setNodeGeom_dedges (ef : EnforcedForest ν γ) (n : ν) (g : γ) :
    (setNodeGeom ef n g).dedges = ef.dedges := by
  rw [setNodeGeom]
  split <;> rfl

theorem setNodeGeom_uedges (ef : EnforcedForest ν γ) (n : ν) (g : γ) :
    (setNodeGeom ef n g).uedges = ef.uedges := by
  rw [setNodeGeom]
  split <;> rfl

theorem setNodeGeom_dnodes (ef : EnforcedForest ν γ) (n : ν) (g : γ) :
    (setNodeGeom ef n g).dnodes = ef.dnodes := by
  rw [setNodeGeom]
  split <;> rfl

theorem setNodeGeom_unodes (ef : EnforcedForest ν γ) (n : ν) (g : γ) :
    (setNodeGeom ef n g).unodes = ef.unodes := by
  rw [setNodeGeom]
  split <;> rfl

theorem add_edge_replace_eq {ef : EnforcedForest ν γ} {u v : ν} {attr : EdgeAttr γ}
    (huv : u ≠ v) (hedge : hasUEdgeL ef.uedges u v = true) :
    add_edge ef u v attr =
      Except.ok ({ ef with
        dedges := removeBothD ef.dedges u v ++ [(u, v, attr)],
        dnodes := addNodeList (addNodeList ef.dnodes u) v,
        uedges := removeBothL ef.uedges u v ++ [(u, v)],
        unodes := addNodeList (addNodeList ef.unodes u) v }, false) := by
  rw [add_edge, if_neg huv, if_pos hedge]
  dsimp only
  rw [insert_eq (by intro hc; exact (mem_pairListD_removeBothD.mp hc).2 rfl)
    (by intro hc; exact (mem_pairList_removeBothL.mp hc).2 rfl)]
  rfl

theorem update_replace_eq {s : TransformForest ν γ} {now : ℚ} {u v : ν} {kw : Kwargs γ}
    {m : M4} (huv : u ≠ v) (hedge : hasUEdgeL s.transforms.uedges u v = true)
    (hm : kwargs_to_matrix kw = Except.ok m) :
    update s now v (some u) kw =
      ({ s with
         updated := s.updated + 1,
         cache := [],
         transforms :=
           (match kw.geometry with
            | some g => setNodeGeom ({ s.transforms with
                dedges := removeBothD s.transforms.dedges u v ++
                  [(u, v, { matrix := m, time := now, geometry := kw.geometry })],
                dnodes := addNodeList (addNodeList s.transforms.dnodes u) v,
                uedges := removeBothL s.transforms.uedges u v ++ [(u, v)],
                unodes := addNodeList (addNodeList s.transforms.unodes u) v }) v g
            | none => { s.transforms with
                dedges := removeBothD s.transforms.dedges u v ++
                  [(u, v, { matrix := m, time := now, geometry := kw.geometry })],
                dnodes := addNodeList (addNodeList s.transforms.dnodes u) v,
                uedges := removeBothL s.transforms.uedges u v ++ [(u, v)],
                unodes := addNodeList (addNodeList s.transforms.unodes u) v }) },
        none) := by
  unfold update
  rw [hm]
  dsimp only
  simp only [Option.getD_some]
  rw [add_edge_replace_eq huv hedge]
  rfl

/-- C3: for distinct nodes `u`, `v` with an existing edge between them
in either direction, `update` removes the old edge in both directions
and re-inserts the new directed edge `u → v` with the new matrix and
timestamp; the undirected topology and the Path Cache are unchanged,
while the Transform Cache is cleared and the version token changed. -/
theorem C3_update_replace {s : TransformForest ν γ} {now : ℚ} {u v : ν} {kw : Kwargs γ}
    {m : M4} (huv : u ≠ v) (hedge : hasUEdgeL s.transforms.uedges u v = true)
    (hm : kwargs_to_matrix kw = Except.ok m) :
    (update s now v (some u) kw).2 = none ∧
    (update s now v (some u) kw).1.transforms.dedges =
      removeBothD s.transforms.dedges u v ++
        [(u, v, { matrix := m, time := now, geometry := kw.geometry })] ∧
    usim (update s now v (some u) kw).1.transforms.uedges = usim s.transforms.uedges ∧
    (update s now v (some u) kw).1.paths = s.paths ∧
    (update s now v (some u) kw).1.cache = [] ∧
    (update s now v (some u) kw).1.updated = s.updated + 1 := by
  rw [update_replace_eq huv hedge hm]
  have husim : usim (removeBothL s.transforms.uedges u v ++ [(u, v)]) =
      usim s.transforms.uedges := by
    rw [usim_append, usim_removeBothL]
    ext x y
    rw [SimpleGraph.sup_adj, SimpleGraph.sdiff_adj]
    constructor
    · rintro (⟨h1, _⟩ | h1)
      · exact h1
      · rw [SimpleGraph.fromEdgeSet_adj, Set.mem_singleton_iff] at h1
        refine usim_adj.mpr ⟨?_, h1.2⟩
        exact mem_pairList.mp (by rw [h1.1]; exact hasUEdgeL_iff.mp hedge)
    · intro h1
      by_cases h2 : (SimpleGraph.fromEdgeSet {Sym2.mk (u, v)} : SimpleGraph ν).Adj x y
      · exact Or.inr h2
      · exact Or.inl ⟨h1, h2⟩
  cases hg : kw.geometry with
  | none =>
    exact ⟨rfl, rfl, husim, rfl, rfl, rfl⟩
  | some g =>
    refine ⟨rfl, ?_, ?_, rfl, rfl, rfl⟩
    · rw [setNodeGeom_dedges]
    · rw [setNodeGeom_uedges]
      exact husim

/-- C4 (amended): when `update` fails, the Forest and the Path Cache are
unchanged, but the version token has already been bumped and the
Transform Cache cleared before the failure surfaces. -/
theorem C4_update_failure_state {s : TransformForest ν γ} {now : ℚ} {ft : ν}
    {ffrom : Option ν} {kw : Kwargs γ} {e : Err}
    (h : (update s now ft ffrom kw).2 = some e) :
    (update s now ft ffrom kw).1.transforms = s.transforms ∧
    (update s now ft ffrom kw).1.paths = s.paths ∧
    (update s now ft ffrom kw).1.cache = [] ∧
    (update s now ft ffrom kw).1.updated = s.updated + 1 := by
  unfold update at h ⊢
  dsimp only at h ⊢
  cases hkm : kwargs_to_matrix kw with
  | error e2 =>
    exact ⟨rfl, rfl, rfl, rfl⟩
  | ok m =>
    rw [hkm] at h
    dsimp only at h ⊢
    cases hadd : add_edge s.transforms (ffrom.getD s.base_frame) ft
        { matrix := m, time := now, geometry := kw.geometry } with
    | error e2 =>
      exact ⟨rfl, rfl, rfl, rfl⟩
    | ok pr =>
      rw [hadd] at h
      dsimp only at h
      cases pr with
      | mk ef changed =>
        cases changed <;> cases hg : kw.geometry <;> simp [hg] at h

theorem TFInv_of_empty {s : TransformForest ν γ} (hef : EFInv s.transforms)
    (hp : s.paths = []) (hc : s.cache = []) : TFInv s := by
  refine ⟨hef, ?_, ?_⟩
  · intro k p h
    rw [hp] at h
    simp at h
  · intro k r h
    rw [hc] at h
    simp at h

theorem c2get : getVal c2s3 1 (some 2) = Except.ok ((1 : M4), none) := by
  rw [get_eq_computeGet
    (fun k p h => by rw [show c2s3.paths = [] from rfl] at h; simp at h)
    (fun k r h => by rw [show c2s3.cache = [] from rfl] at h; simp at h)]
  simp only [Option.getD_some]
  rw [computeGet]
  rw [show findPathNX c2s3.transforms.uedges c2s3.transforms.unodes 2 1 = some [2, 1]
    from rfl]
  dsimp only
  rw [show pairsOf ([2, 1] : List ℕ) = [(2, 1)] from rfl]
  rw [collectE_cons_ok
    (by rw [show edgeMat c2s3.transforms (2, 1) = mInvE 1 from rfl, mInvE_one])
    (show collectE c2s3.transforms [] = Except.ok [] from rfl)]
  rfl

/-- C2 counterexample: after building `world → A`, `A → B` and calling
`update (B, world, identity)`, the edge `A → B` is still stored and
`get(A, B)` succeeds, returning the identity matrix — it does not fail
with a `DisconnectedError` as the claim states, because `add_edge`
removed the first edge `world → A` of the existing path, not `A`'s
edge. -/
theorem C2_counterexample :
    getVal c2s3 1 (some 2) = Except.ok ((1 : M4), none) ∧
      c2s3.transforms.dedges.map (fun e => (e.1, e.2.1)) = [(1, 2), (0, 2)] :=
  ⟨c2get, by decide⟩

/-- C2 (amended): the third `update` succeeds; the surviving edges are
`A → B` and `world → B`; the unique simple path from `world` to `B` is
the direct edge; and `A` remains connected to `B`, so `get(A, B)`
succeeds (returning the identity) instead of raising
`DisconnectedError`. -/
theorem C2_amended :
    (update c2s2 0 2 (some 0) kwI).2 = none ∧
    c2s3.transforms.dedges.map (fun e => (e.1, e.2.1)) = [(1, 2), (0, 2)] ∧
    findPathNX c2s3.transforms.uedges c2s3.transforms.unodes 0 2 = some [0, 2] ∧
    (∀ p : List ℕ, GWalk (usim c2s3.transforms.uedges) 0 2 p → p.Nodup → p = [0, 2]) ∧
    getVal c2s3 1 (some 2) = Except.ok ((1 : M4), none) := by
  refine ⟨by decide, by decide, by decide, ?_, c2get⟩
  intro p hp hnd
  have hacy : (usim c2s3.transforms.uedges).IsAcyclic := forestB_sound (by decide)
  have hgw : GWalk (usim c2s3.transforms.uedges) 0 2 [0, 2] :=
    GWalk.cons (usim_adj.mpr ⟨by decide, by decide⟩) (GWalk.single 2)
  exact gwalk_unique hacy hp hnd hgw (by decide)

theorem C2_amended_witness :
    getVal c2s3 1 (some 2) = Except.ok ((1 : M4), none) ∧ [0, 2] = [0, 2] :=
  ⟨C2_amended.2.2.2.2,
    C2_amended.2.2.2.1 [0, 2]
      (GWalk.cons (usim_adj.mpr ⟨by decide, by decide⟩) (GWalk.single 2)) (by decide)⟩

theorem C3_update_replace_witness :
    hasUEdgeL c3s.transforms.uedges 0 1 = true ∧
      (update c3s 5 1 (some 0) kwI).2 = none ∧
      (update c3s 5 1 (some 0) kwI).1.paths = c3s.paths :=
  ⟨by decide,
    (@C3_update_replace ℕ ℕ _ _ c3s 5 0 1 kwI 1 (by decide) (by decide)
      (show kwargs_to_matrix kwI = Except.ok 1 from rfl)).1,
    (@C3_update_replace ℕ ℕ _ _ c3s 5 0 1 kwI 1 (by decide) (by decide)
      (show kwargs_to_matrix kwI = Except.ok 1 from rfl)).2.2.2.1⟩

/-- C4 counterexample: a failing `update` (no matrix, quaternion or
axis-angle supplied) does mutate state: the transform cache is cleared
and the version token bumped before the failure is raised, so they are
not - as the claim states - exactly as before the call. -/
theorem C4_counterexample :
    (update c4s 0 5 none ({} : Kwargs ℕ)).2 = some Err.ambiguous ∧
    (update c4s 0 5 none ({} : Kwargs ℕ)).1.cache ≠ c4s.cache ∧
    (update c4s 0 5 none ({} : Kwargs ℕ)).1.updated ≠ c4s.updated := by
  refine ⟨by decide, ?_, by decide⟩
  intro hc
  have h1 : (update c4s 0 5 none ({} : Kwargs ℕ)).1.cache = [] := by decide
  have h2 : c4s.cache ≠ [] := by decide
  exact h2 (by rw [← hc, h1])

theorem C4_update_failure_state_witness :
    (update c4s 0 5 none ({} : Kwargs ℕ)).2 = some Err.ambiguous ∧
    (update c4s 0 5 none ({} : Kwargs ℕ)).1.transforms = c4s.transforms ∧
    (update c4s 0 5 none ({} : Kwargs ℕ)).1.paths = c4s.paths :=
  ⟨by decide,
    (@C4_update_failure_state ℕ ℕ _ _ c4s 0 5 none {} Err.ambiguous (by decide)).1,
    (@C4_update_failure_state ℕ ℕ _ _ c4s 0 5 none {} Err.ambiguous (by decide)).2.1⟩

/-- C7: the code path for a two-element edge-list entry.  The dedicated
`len(edge) == 2` branch of `from_edgelist` calls `update` with no
transform description at all, so `kwargs_to_matrix` raises the
`ValueError` modelled by `Err.ambiguous` instead of inserting an
identity edge, in strict and lenient mode alike. -/
theorem C7_pair_entry_raises :
    (from_edgelist (freshTF 0 : TransformForest ℕ ℕ) 0 [Entry.pair 0 1] false).2 =
      some Err.ambiguous ∧
    (from_edgelist (freshTF 0 : TransformForest ℕ ℕ) 0 [Entry.pair 0 1] true).2 =
      some Err.ambiguous ∧
    (from_edgelist (freshTF 0 : TransformForest ℕ ℕ) 0 [Entry.pair 0 1] true).1.transforms.dedges
      = [] := by
  refine ⟨by decide, by decide, by decide⟩

/-- C8 counterexample: `get(f, f)` on a frame unknown to the graph does
not return the identity matrix - the path lookup raises the error
modelled by `Err.disconnected` (`NodeNotFound`) because the source has
no special case for `frame_to == frame_from`. -/
theorem C8_counterexample :
    getVal (freshTF 0 : TransformForest ℕ ℕ) 0 (some 0) =
      Except.error Err.disconnected := by
  decide

/-- C8 (amended): for a frame `f` that is a node of the graph,
`get(f, f)` returns the identity matrix paired with `f`'s geometry;
for unknown frames it raises instead (see the counterexample). -/
theorem C8_self_get {s : TransformForest ν γ} (hinv : TFInv s) {f : ν}
    (hf : f ∈ s.transforms.unodes) :
    getVal s f (some f) = Except.ok ((1 : M4), nodeGeomOf s.transforms f) := by
  rw [get_eq_computeGet hinv.pathsOK hinv.cacheOK]
  simp only [Option.getD_some]
  rw [computeGet]
  have hp : findPathNX s.transforms.uedges s.transforms.unodes f f = some [f] := by
    rw [findPathNX, if_pos ⟨hf, hf⟩]
    rw [dfs, if_pos rfl]
  rw [hp]
  rfl

theorem C8_self_get_witness :
    (1 : ℕ) ∈ c2s1.transforms.unodes ∧
      getVal c2s1 1 (some 1) = Except.ok ((1 : M4), nodeGeomOf c2s1.transforms 1) :=
  ⟨by decide,
    C8_self_get (TFInv_of_empty (EFInvB_sound (by decide)) rfl rfl) (by decide)⟩

/-- C10: when more than one transform description is supplied,
`kwargs_to_matrix` raises no error; an explicit matrix takes precedence
over a quaternion, which takes precedence over an axis-angle pair, and
the lower-precedence descriptions are silently ignored (the result
coincides with the call where they are dropped). -/
theorem C10_kwargs_precedence {γ2 : Type} [DecidableEq γ2] (kw : Kwargs γ2) (m : M4)
    (q : Fin 4 → ℚ) :
    (kw.matrix = some m →
      kwargs_to_matrix kw =
        kwargs_to_matrix { kw with quaternion := none, axis := none, angle := none } ∧
      kwargs_to_matrix kw =
        Except.ok (match kw.translation with
                   | some t => addTranslation m t
                   | none => m)) ∧
    (kw.matrix = none → kw.quaternion = some q →
      kwargs_to_matrix kw = kwargs_to_matrix { kw with axis := none, angle := none } ∧
      kwargs_to_matrix kw =
        Except.ok (match kw.translation with
                   | some t => addTranslation (quaternion_matrix q) t
                   | none => quaternion_matrix q)) := by
  constructor
  · intro h1
    rw [kwargs_to_matrix, kwargs_to_matrix]
    rw [h1]
    exact ⟨rfl, rfl⟩
  · intro h1 h2
    rw [kwargs_to_matrix, kwargs_to_matrix]
    rw [h1, h2]
    exact ⟨rfl, rfl⟩

theorem C10_kwargs_precedence_witness :
    kwAll.matrix = some 1 ∧
      kwargs_to_matrix kwAll =
        kwargs_to_matrix { kwAll with quaternion := none, axis := none, angle := none } :=
  ⟨rfl, ((C10_kwargs_precedence kwAll 1 fun _ => 1).1 rfl).1⟩

/-! ### Claim C5: inversion -/
theorem lookupD_some_mem {ef : EnforcedForest ν γ} {x y : ν} {d : EdgeAttr γ}
    (h : lookupD ef x y = some d) : (x, y, d) ∈ ef.dedges := by
  rw [lookupD] at h
  obtain ⟨p, hp, hpv⟩ := Option.map_eq_some'.mp h
  have hmem := List.mem_of_find?_eq_some hp
  have hpred := List.find?_some hp
  rw [decide_eq_true_eq] at hpred
  obtain ⟨a, b, dd⟩ := p
  obtain ⟨h1, h2⟩ := hpred
  dsimp only at h1 h2 hpv
  subst h1
  subst h2
  subst hpv
  exact hmem

theorem lookupD_not_both {ef : EnforcedForest ν γ} (hinv : EFInv ef) {x y : ν}
    {d : EdgeAttr γ} (h : lookupD ef x y = some d) (hxy : x ≠ y) :
    lookupD ef y x = none := by
  cases h2 : lookupD ef y x with
  | none => rfl
  | some d2 =>
    exfalso
    have hm1 := lookupD_some_mem h
    have hm2 := lookupD_some_mem h2
    have heq : (x, y, d) = (y, x, d2) :=
      List.inj_on_of_nodup_map hinv.nodupD hm1 hm2 (by simp [Sym2.eq_swap])
    exact hxy (congrArg Prod.fst heq)

theorem edgeMat_ok_ne {ef : EnforcedForest ν γ} (hinv : EFInv ef) {e : ν × ν} {m : M4}
    (h : edgeMat ef e = Except.ok m) : e.1 ≠ e.2 := by
  rw [edgeMat, get_edge_data_direction] at h
  cases h2 : lookupD ef e.1 e.2 with
  | some d =>
    exact fun hc => (hinv.nslD _ (lookupD_some_mem h2)) hc
  | none =>
    rw [h2] at h
    cases h3 : lookupD ef e.2 e.1 with
    | some d =>
      exact fun hc => (hinv.nslD _ (lookupD_some_mem h3)) hc.symm
    | none =>
      rw [h3] at h
      exact absurd h (by simp)

theorem edgeMat_reverse {ef : EnforcedForest ν γ} (hinv : EFInv ef) {x y : ν}
    {m m2 : M4} (h1 : edgeMat ef (x, y) = Except.ok m)
    (h2 : edgeMat ef (y, x) = Except.ok m2) :
    m2 * m = 1 ∧ m * m2 = 1 := by
  have hxy : x ≠ y := edgeMat_ok_ne hinv h1
  rw [edgeMat, get_edge_data_direction] at h1 h2
  dsimp only at h1 h2
  cases hxyD : lookupD ef x y with
  | some d =>
    have hyx : lookupD ef y x = none := lookupD_not_both hinv hxyD hxy
    rw [hxyD] at h1
    rw [hyx, hxyD] at h2
    dsimp only at h1 h2
    rw [if_neg (by decide)] at h1
    rw [if_pos (by decide)] at h2
    obtain rfl := Except.ok.inj h1
    obtain ⟨_, hlm, hrm, _⟩ := mInvE_ok h2
    exact ⟨hlm, hrm⟩
  | none =>
    rw [hxyD] at h1
    cases hyxD : lookupD ef y x with
    | some d =>
      rw [hyxD] at h1
      rw [hyxD] at h2
      dsimp only at h1 h2
      rw [if_pos (by decide)] at h1
      rw [if_neg (by decide)] at h2
      obtain rfl := Except.ok.inj h2
      obtain ⟨_, hlm, hrm, _⟩ := mInvE_ok h1
      exact ⟨hrm, hlm⟩
    | none =>
      rw [hyxD] at h1
      exact absurd h1 (by simp)

theorem pairsOf_append_single :
    ∀ (q : List ν) (a x : ν), q.getLast? = some a →
      pairsOf (q ++ [x]) = pairsOf q ++ [(a, x)]
  | [], a, x, h => by simp at h
  | [b], a, x, h => by
    simp only [List.getLast?_singleton, Option.some.injEq] at h
    subst h
    rfl
  | b :: c :: rest, a, x, h => by
    rw [show (b :: c :: rest) ++ [x] = b :: ((c :: rest) ++ [x]) from rfl]
    rw [show pairsOf (b :: ((c :: rest) ++ [x])) =
      (b, c) :: pairsOf ((c :: rest) ++ [x]) from rfl]
    rw [pairsOf_append_single (c :: rest) a x (by rw [← h]; rfl)]
    rfl

theorem collectE_append_ok {ef : EnforcedForest ν γ} :
    ∀ {l1 l2 : List (ν × ν)} {ms : List M4},
      collectE ef (l1 ++ l2) = Except.ok ms →
      ∃ ms1 ms2, collectE ef l1 = Except.ok ms1 ∧ collectE ef l2 = Except.ok ms2 ∧
        ms = ms1 ++ ms2 := by
  intro l1
  induction l1 with
  | nil => intro l2 ms h; exact ⟨[], ms, rfl, h, rfl⟩
  | cons e rest ih =>
    intro l2 ms h
    rw [show (e :: rest) ++ l2 = e :: (rest ++ l2) from rfl, collectE] at h
    cases h1 : edgeMat ef e with
    | error err => rw [h1] at h; exact absurd h (by simp)
    | ok m =>
      rw [h1] at h
      cases h2 : collectE ef (rest ++ l2) with
      | error err => rw [h2] at h; exact absurd h (by simp)
      | ok ms0 =>
        rw [h2] at h
        obtain rfl := Except.ok.inj h
        obtain ⟨ms1, ms2, hh1, hh2, rfl⟩ := ih h2
        exact ⟨m :: ms1, ms2, by rw [collectE, h1, hh1], hh2, rfl⟩

theorem collectE_reverse_prod {ef : EnforcedForest ν γ} (hinv : EFInv ef) :
    ∀ (p : List ν) (ms ms2 : List M4),
      collectE ef (pairsOf p) = Except.ok ms →
      collectE ef (pairsOf p.reverse) = Except.ok ms2 →
      composeT ms2 * composeT ms = 1 ∧ composeT ms * composeT ms2 = 1 := by
  intro p
  induction p with
  | nil =>
    intro ms ms2 h1 h2
    obtain rfl := Except.ok.inj h1
    obtain rfl := Except.ok.inj h2
    constructor <;> simp [show composeT ([] : List M4) = 1 from rfl]
  | cons x tail ih =>
    intro ms ms2 h1 h2
    cases tail with
    | nil =>
      obtain rfl := Except.ok.inj h1
      obtain rfl := Except.ok.inj h2
      constructor <;> simp [show composeT ([] : List M4) = 1 from rfl]
    | cons y rest =>
      rw [show pairsOf (x :: y :: rest) = (x, y) :: pairsOf (y :: rest) from rfl,
        collectE] at h1
      cases hxy : edgeMat ef (x, y) with
      | error err => rw [hxy] at h1; exact absurd h1 (by simp)
      | ok mxy =>
        rw [hxy] at h1
        cases htail : collectE ef (pairsOf (y :: rest)) with
        | error err => rw [htail] at h1; exact absurd h1 (by simp)
        | ok mst =>
          rw [htail] at h1
          obtain rfl := Except.ok.inj h1
          rw [show (x :: y :: rest).reverse = (y :: rest).reverse ++ [x] by simp] at h2
          rw [pairsOf_append_single ((y :: rest).reverse) y x
            (by rw [List.getLast?_reverse]; rfl)] at h2
          obtain ⟨msr, msx, hr, hx, rfl⟩ := collectE_append_ok h2
          rw [collectE] at hx
          cases hyx : edgeMat ef (y, x) with
          | error err => rw [hyx] at hx; exact absurd hx (by simp)
          | ok myx =>
            rw [hyx, show collectE ef [] = Except.ok ([] : List M4) from rfl] at hx
            obtain rfl := Except.ok.inj hx
            obtain ⟨hrl, hrr⟩ := ih mst msr htail hr
            obtain ⟨hel, her⟩ := edgeMat_reverse hinv hxy hyx
            simp only [composeT_eq_prod] at hrl hrr ⊢
            constructor
            · rw [List.prod_append, List.prod_cons, List.prod_cons, List.prod_nil,
                mul_one]
              rw [mul_assoc msr.prod myx (mxy * mst.prod),
                ← mul_assoc myx mxy mst.prod, hel, one_mul]
              exact hrl
            · rw [List.prod_append, List.prod_cons, List.prod_cons, List.prod_nil,
                mul_one]
              rw [mul_assoc mxy mst.prod (msr.prod * myx),
                ← mul_assoc mst.prod msr.prod myx, hrr, one_mul]
              exact her

/-- C5: for every pair of connected frames `A`, `B` on a coherent
forest, when `get(B, A)` returns matrix `M` and `get(A, B)` returns
matrix `N` (both succeeding forces every edge matrix along the path to
be invertible), the two matrices are mutually inverse - exactly, under
the exact rational arithmetic of this model: `N = M⁻¹`. -/
theorem C5_inversion {s : TransformForest ν γ} (hinv : TFInv s) {A B : ν}
    {M N : M4} {g g2 : Option γ}
    (hAB : getVal s B (some A) = Except.ok (M, g))
    (hBA : getVal s A (some B) = Except.ok (N, g2)) :
    N = M⁻¹ ∧ N * M = 1 ∧ M * N = 1 := by
  rw [get_eq_computeGet hinv.pathsOK hinv.cacheOK] at hAB hBA
  simp only [Option.getD_some] at hAB hBA
  rw [computeGet] at hAB hBA
  cases hp : findPathNX s.transforms.uedges s.transforms.unodes A B with
  | none => rw [hp] at hAB; exact absurd hAB (by simp)
  | some p =>
    rw [hp] at hAB
    cases hq : findPathNX s.transforms.uedges s.transforms.unodes B A with
    | none => rw [hq] at hBA; exact absurd hBA (by simp)
    | some q =>
      rw [hq] at hBA
      obtain ⟨hgwp, hndp, -, -⟩ := findPathNX_sound hinv.efInv.nslU hp
      obtain ⟨hgwq, hndq, -, -⟩ := findPathNX_sound hinv.efInv.nslU hq
      have hqe : q = p.reverse :=
        gwalk_unique hinv.efInv.acyclic hgwq hndq hgwp.reverse (by simp [hndp])
      subst hqe
      dsimp only at hAB hBA
      cases hc1 : collectE s.transforms (pairsOf p) with
      | error err => rw [hc1] at hAB; exact absurd hAB (by simp)
      | ok ms =>
        rw [hc1] at hAB
        cases hc2 : collectE s.transforms (pairsOf p.reverse) with
        | error err => rw [hc2] at hBA; exact absurd hBA (by simp)
        | ok ms2 =>
          rw [hc2] at hBA
          have hM : composeT ms = M := congrArg Prod.fst (Except.ok.inj hAB)
          have hN : composeT ms2 = N := congrArg Prod.fst (Except.ok.inj hBA)
          obtain ⟨h1, h2⟩ := collectE_reverse_prod hinv.efInv p ms ms2 hc1 hc2
          rw [hM, hN] at h1 h2
          exact ⟨(Matrix.inv_eq_left_inv h1).symm, h1, h2⟩

theorem c5get : getVal c2s1 0 (some 1) = Except.ok ((1 : M4), none) := by
  rw [get_eq_computeGet
    (fun k p h => by rw [show c2s1.paths = [] from rfl] at h; simp at h)
    (fun k r h => by rw [show c2s1.cache = [] from rfl] at h; simp at h)]
  simp only [Option.getD_some]
  rw [computeGet]
  rw [show findPathNX c2s1.transforms.uedges c2s1.transforms.unodes 1 0 = some [1, 0]
    from rfl]
  dsimp only
  rw [show pairsOf ([1, 0] : List ℕ) = [(1, 0)] from rfl]
  rw [collectE_cons_ok
    (by rw [show edgeMat c2s1.transforms (1, 0) = mInvE 1 from rfl, mInvE_one])
    (show collectE c2s1.transforms [] = Except.ok [] from rfl)]
  rfl

theorem C5_inversion_witness :
    getVal c2s1 1 (some 0) = Except.ok ((1 : M4), none) ∧ (1 : M4) = (1 : M4)⁻¹ :=
  ⟨rfl,
    (C5_inversion (TFInv_of_empty (EFInvB_sound (by decide)) rfl rfl)
      (show getVal c2s1 1 (some 0) = Except.ok ((1 : M4), none) from rfl) c5get).1⟩

theorem to_edgelist_eq_map (s : TransformForest ν γ) :
    to_edgelist s = s.transforms.dedges.map (exportEntry s) := rfl

theorem nodesFold_append (l1 l2 : List (ν × ν × EdgeAttr γ)) (acc : List ν) :
    nodesFold (l1 ++ l2) acc = nodesFold l2 (nodesFold l1 acc) := by
  induction l1 generalizing acc with
  | nil => rfl
  | cons e rest ih => rw [List.cons_append, nodesFold, nodesFold, ih]

theorem pairListD_mapAttr (s : TransformForest ν γ) (now : ℚ)
    (l : List (ν × ν × EdgeAttr γ)) : pairListD (mapAttr s now l) = pairListD l := by
  rw [pairListD, mapAttr, List.map_map, pairListD]
  rfl

theorem pairList_mapPr (l : List (ν × ν × EdgeAttr γ)) :
    pairList (l.map fun e => (e.1, e.2.1)) = pairListD l := by
  rw [pairList, List.map_map, pairListD]
  rfl

/-- `kwargs_to_matrix` on a keyword set carrying an explicit matrix and
no translation simply returns that matrix. -/
theorem kwargs_to_matrix_matrix {γ2 : Type} {kw : Kwargs γ2} {m : M4}
    (h1 : kw.matrix = some m) (h2 : kw.translation = none) :
    kwargs_to_matrix kw = Except.ok m := by
  rw [kwargs_to_matrix, h1, h2]

/-- `add_edge` in the plain-add case: the pair is not yet present and
either the graph is empty or the endpoints are disconnected, so the edge
is appended with no surgery and `changed` is `False`. -/
theorem add_edge_plain_eq {ef : EnforcedForest ν γ} {u v : ν} {attr : EdgeAttr γ}
    (huv : u ≠ v) (hedge : hasUEdgeL ef.uedges u v = false)
    (hd : Sym2.mk (u, v) ∉ pairListD ef.dedges)
    (hbranch : ef.dnodes.isEmpty = true ∨ findPathNX ef.uedges ef.unodes u v = none) :
    add_edge ef u v attr =
      Except.ok ({ ef with
        dedges := ef.dedges ++ [(u, v, attr)],
        dnodes := addNodeList (addNodeList ef.dnodes u) v,
        uedges := ef.uedges ++ [(u, v)],
        unodes := addNodeList (addNodeList ef.unodes u) v }, false) := by
  have hu : Sym2.mk (u, v) ∉ pairList ef.uedges := by
    intro hc
    have h2 := hasUEdgeL_iff.mpr hc
    rw [hedge] at h2
    exact Bool.false_ne_true h2
  rw [add_edge, if_neg huv]
  rw [if_neg (by rw [hedge]; exact Bool.false_ne_true)]
  rcases hbranch with hemp | hpath
  · rw [if_pos hemp]
    dsimp only
    rw [insert_eq hd hu]
  · by_cases hemp : ef.dnodes.isEmpty = true
    · rw [if_pos hemp]
      dsimp only
      rw [insert_eq hd hu]
    · rw [if_neg hemp, hpath]
      dsimp only
      rw [insert_eq hd hu]

/-- `update` in the plain-add case: the edge is appended, the path cache
survives (`changed` is `False`), the transform cache is cleared and the
version token changed. -/
theorem update_plain_eq {s : TransformForest ν γ} {now : ℚ} {u v : ν} {kw : Kwargs γ}
    {m : M4} (huv : u ≠ v) (hm : kwargs_to_matrix kw = Except.ok m)
    (hedge : hasUEdgeL s.transforms.uedges u v = false)
    (hd : Sym2.mk (u, v) ∉ pairListD s.transforms.dedges)
    (hbranch : s.transforms.dnodes.isEmpty = true ∨
      findPathNX s.transforms.uedges s.transforms.unodes u v = none) :
    update s now v (some u) kw =
      ({ s with
         updated := s.updated + 1,
         cache := [],
         transforms :=
           (match kw.geometry with
            | some g => setNodeGeom ({ s.transforms with
                dedges := s.transforms.dedges ++
                  [(u, v, { matrix := m, time := now, geometry := kw.geometry })],
                dnodes := addNodeList (addNodeList s.transforms.dnodes u) v,
                uedges := s.transforms.uedges ++ [(u, v)],
                unodes := addNodeList (addNodeList s.transforms.unodes u) v }) v g
            | none => { s.transforms with
                dedges := s.transforms.dedges ++
                  [(u, v, { matrix := m, time := now, geometry := kw.geometry })],
                dnodes := addNodeList (addNodeList s.transforms.dnodes u) v,
                uedges := s.transforms.uedges ++ [(u, v)],
                unodes := addNodeList (addNodeList s.transforms.unodes u) v }) },
        none) := by
  unfold update
  rw [hm]
  dsimp only
  simp only [Option.getD_some]
  rw [add_edge_plain_eq huv hedge hd hbranch]
  rfl

/-- A subgraph bound used by the replay argument: an edge list whose
pairs all occur in `E` but avoid the pair `(a, b)` spans a subgraph of
`usim E` minus that edge. -/
theorem usim_le_sdiff {F E : List (ν × ν)} {a b : ν}
    (hsub : ∀ z ∈ pairList F, z ∈ pairList E ∧ z ≠ Sym2.mk (a, b)) :
    usim F ≤ usim E \ SimpleGraph.fromEdgeSet {Sym2.mk (a, b)} := by
  intro x y hadj
  rcases usim_adj.mp hadj with ⟨hm, hxy⟩
  have hz : Sym2.mk (x, y) ∈ pairList F := mem_pairList.mpr hm
  obtain ⟨hz1, hz2⟩ := hsub _ hz
  rw [SimpleGraph.sdiff_adj]
  refine ⟨usim_adj.mpr ⟨mem_pairList.mp hz1, hxy⟩, ?_⟩
  rw [SimpleGraph.fromEdgeSet_adj]
  rintro ⟨hc, -⟩
  rw [Set.mem_singleton_iff] at hc
  exact hz2 hc

/-- Replaying exported entries onto a partially rebuilt forest.  When
the original forest is coherent and the rebuilt state holds exactly the
already-replayed prefix `done` (with replay timestamps and exported
geometry), the remaining entries replay without error and extend the
rebuilt forest edge by edge.  Each step is a plain add: the pair is new
because the export has no duplicate pairs, and its endpoints are
disconnected in the partial graph because the full export is a
forest. -/
theorem replay_invariant {s : TransformForest ν γ} (hinv : EFInv s.transforms)
    (now : ℚ) (st : Bool) :
    ∀ (todo done : List (ν × ν × EdgeAttr γ)) (t : TransformForest ν γ),
      s.transforms.dedges = done ++ todo →
      t.transforms.dedges = mapAttr s now done →
      t.transforms.uedges = done.map (fun e => (e.1, e.2.1)) →
      t.transforms.dnodes = nodesFold done [] →
      t.transforms.unodes = nodesFold done [] →
      t.paths = [] → t.cache = [] → t.base_frame = s.base_frame →
      ∃ t2 : TransformForest ν γ,
        from_edgelist t now (todo.map (exportEntry s)) st = (t2, none) ∧
        t2.transforms.dedges = mapAttr s now (done ++ todo) ∧
        t2.transforms.uedges = (done ++ todo).map (fun e => (e.1, e.2.1)) ∧
        t2.transforms.dnodes = nodesFold (done ++ todo) [] ∧
        t2.transforms.unodes = nodesFold (done ++ todo) [] ∧
        t2.paths = [] ∧ t2.cache = [] ∧ t2.base_frame = s.base_frame := by
  intro todo
  induction todo with
  | nil =>
    intro done t hsplit hde hue hdn hun hpa hca hbf
    exact ⟨t, rfl, by rw [List.append_nil]; exact hde,
      by rw [List.append_nil]; exact hue, by rw [List.append_nil]; exact hdn,
      by rw [List.append_nil]; exact hun, hpa, hca, hbf⟩
  | cons e rest ih =>
    intro done t hsplit hde hue hdn hun hpa hca hbf
    have hmemFull : e ∈ s.transforms.dedges := by
      rw [hsplit]
      exact List.mem_append_right done (List.mem_cons_self e rest)
    have hab : e.1 ≠ e.2.1 := hinv.nslD e hmemFull
    have hsplitP : pairListD (done ++ e :: rest) =
        pairListD done ++ pairListD (e :: rest) := by
      rw [pairListD, List.map_append]
      rfl
    have hnodupFull : (pairListD done ++ pairListD (e :: rest)).Nodup := by
      rw [← hsplitP, ← hsplit]
      exact hinv.nodupD
    have hheadMem : Sym2.mk (e.1, e.2.1) ∈ pairListD (e :: rest) := by
      rw [pairListD]
      exact List.mem_map.mpr ⟨e, List.mem_cons_self e rest, rfl⟩
    have hDabs : Sym2.mk (e.1, e.2.1) ∉ pairListD done := by
      intro hcmem
      exact (List.nodup_append.mp hnodupFull).2.2 hcmem hheadMem
    have hedge : hasUEdgeL t.transforms.uedges e.1 e.2.1 = false := by
      rw [← Bool.not_eq_true, hasUEdgeL_iff, hue, pairList_mapPr]
      exact hDabs
    have hdabsT : Sym2.mk (e.1, e.2.1) ∉ pairListD t.transforms.dedges := by
      rw [hde, pairListD_mapAttr]
      exact hDabs
    have hnslT : NSL t.transforms.uedges := by
      rw [hue]
      intro e2 he2
      obtain ⟨e3, he3, rfl⟩ := List.mem_map.mp he2
      exact hinv.nslD e3 (by rw [hsplit]; exact List.mem_append_left _ he3)
    have hsub : ∀ z ∈ pairList t.transforms.uedges,
        z ∈ pairList s.transforms.uedges ∧ z ≠ Sym2.mk (e.1, e.2.1) := by
      intro z hz
      rw [hue, pairList_mapPr] at hz
      refine ⟨(hinv.sync z).mp ?_, ?_⟩
      · rw [hsplit, hsplitP]
        exact List.mem_append_left _ hz
      · rintro rfl
        exact hDabs hz
    have hbranch : t.transforms.dnodes.isEmpty = true ∨
        findPathNX t.transforms.uedges t.transforms.unodes e.1 e.2.1 = none := by
      by_cases hemp : t.transforms.dnodes.isEmpty = true
      · exact Or.inl hemp
      · refine Or.inr ?_
        cases hfp : findPathNX t.transforms.uedges t.transforms.unodes e.1 e.2.1 with
        | none => rfl
        | some p =>
          exfalso
          obtain ⟨hgw, -, -⟩ := findPathNX_sound hnslT hfp
          have hreach := (hgw.mono (usim_le_sdiff hsub)).reachable
          have hadj : (usim s.transforms.uedges).Adj e.1 e.2.1 := by
            refine usim_adj.mpr ⟨mem_pairList.mp ((hinv.sync _).mp ?_), hab⟩
            rw [hsplit, hsplitP]
            exact List.mem_append_right _ hheadMem
          have hbridge := SimpleGraph.isAcyclic_iff_forall_adj_isBridge.mp
            hinv.acyclic hadj
          rw [SimpleGraph.isBridge_iff] at hbridge
          exact hbridge.2 hreach
    have hkm : kwargs_to_matrix (expKw s e) = Except.ok e.2.2.matrix :=
      kwargs_to_matrix_matrix rfl rfl
    have hupd := @update_plain_eq ν γ _ _ t now e.1 e.2.1 (expKw s e) e.2.2.matrix
      hab hkm hedge hdabsT hbranch
    rw [show (expKw s e).geometry = gExp s e from rfl] at hupd
    have hsplit2 : s.transforms.dedges = (done ++ [e]) ++ rest := by
      rw [hsplit, List.append_assoc, List.singleton_append]
    have hmapP : (done ++ [e]).map (fun e2 => (e2.1, e2.2.1)) =
        done.map (fun e2 => (e2.1, e2.2.1)) ++ [(e.1, e.2.1)] := by
      rw [List.map_append]
      rfl
    have hnf : nodesFold (done ++ [e]) ([] : List ν) =
        addNodeList (addNodeList (nodesFold done []) e.1) e.2.1 := by
      rw [nodesFold_append]
      rfl
    cases hge : gExp s e with
    | none =>
      rw [hge] at hupd
      dsimp only at hupd
      have hmapA : mapAttr s now (done ++ [e]) = mapAttr s now done ++
          [(e.1, e.2.1, { matrix := e.2.2.matrix, time := now, geometry := none })] := by
        simp only [mapAttr, List.map_append, List.map_cons, List.map_nil]
        rw [hge]
      obtain ⟨t2, hrep, h1, h2, h3, h4, h5, h6, h7⟩ :=
        ih (done ++ [e]) (update t now e.2.1 (some e.1) (expKw s e)).1
          hsplit2
          (by rw [hupd]; dsimp only; rw [hde, hmapA])
          (by rw [hupd]; dsimp only; rw [hue, hmapP])
          (by rw [hupd]; dsimp only; rw [hdn, hnf])
          (by rw [hupd]; dsimp only; rw [hun, hnf])
          (by rw [hupd]; dsimp only; exact hpa)
          (by rw [hupd])
          (by rw [hupd]; dsimp only; exact hbf)
      rw [List.append_assoc, List.singleton_append] at h1 h2 h3 h4
      refine ⟨t2, ?_, h1, h2, h3, h4, h5, h6, h7⟩
      rw [show (e :: rest).map (exportEntry s) =
        Entry.triple e.1 e.2.1 (expKw s e) :: rest.map (exportEntry s) from rfl]
      rw [from_edgelist, hupd]
      dsimp only
      rw [hupd] at hrep
      dsimp only at hrep
      exact hrep
    | some g =>
      rw [hge] at hupd
      dsimp only at hupd
      have hmapA : mapAttr s now (done ++ [e]) = mapAttr s now done ++
          [(e.1, e.2.1, { matrix := e.2.2.matrix, time := now, geometry := some g })] := by
        simp only [mapAttr, List.map_append, List.map_cons, List.map_nil]
        rw [hge]
      obtain ⟨t2, hrep, h1, h2, h3, h4, h5, h6, h7⟩ :=
        ih (done ++ [e]) (update t now e.2.1 (some e.1) (expKw s e)).1
          hsplit2
          (by rw [hupd]; dsimp only; rw [setNodeGeom_dedges]; dsimp only; rw [hde, hmapA])
          (by rw [hupd]; dsimp only; rw [setNodeGeom_uedges]; dsimp only; rw [hue, hmapP])
          (by rw [hupd]; dsimp only; rw [setNodeGeom_dnodes]; dsimp only; rw [hdn, hnf])
          (by rw [hupd]; dsimp only; rw [setNodeGeom_unodes]; dsimp only; rw [hun, hnf])
          (by rw [hupd]; dsimp only; exact hpa)
          (by rw [hupd])
          (by rw [hupd]; dsimp only; exact hbf)
      rw [List.append_assoc, List.singleton_append] at h1 h2 h3 h4
      refine ⟨t2, ?_, h1, h2, h3, h4, h5, h6, h7⟩
      rw [show (e :: rest).map (exportEntry s) =
        Entry.triple e.1 e.2.1 (expKw s e) :: rest.map (exportEntry s) from rfl]
      rw [from_edgelist, hupd]
      dsimp only
      rw [hupd] at hrep
      dsimp only at hrep
      exact hrep

theorem mem_nodesFold : ∀ (l : List (ν × ν × EdgeAttr γ)) (acc : List ν) (n : ν),
    n ∈ nodesFold l acc ↔ n ∈ acc ∨ ∃ e ∈ l, n = e.1 ∨ n = e.2.1 := by
  intro l
  induction l with
  | nil =>
    intro acc n
    simp [nodesFold]
  | cons e rest ih =>
    intro acc n
    rw [nodesFold, ih, mem_addNodeList, mem_addNodeList]
    simp only [List.mem_cons]
    constructor
    · rintro (((h | h) | h) | ⟨e2, he2, h⟩)
      · exact Or.inl h
      · exact Or.inr ⟨e, Or.inl rfl, Or.inl h⟩
      · exact Or.inr ⟨e, Or.inl rfl, Or.inr h⟩
      · exact Or.inr ⟨e2, Or.inr he2, h⟩
    · rintro (h | ⟨e2, (rfl | he2), h⟩)
      · exact Or.inl (Or.inl (Or.inl h))
      · rcases h with h | h
        · exact Or.inl (Or.inl (Or.inr h))
        · exact Or.inl (Or.inr h)
      · exact Or.inr ⟨e2, he2, h⟩

/-- Looking up a directed edge in the replayed edge list finds the same
entry, with the same matrix, as in the original list. -/
theorem find_matrix_mapAttr (s : TransformForest ν γ) (now : ℚ) (x y : ν) :
    ∀ l : List (ν × ν × EdgeAttr γ),
      ((mapAttr s now l).find? fun e => decide (e.1 = x ∧ e.2.1 = y)).map
          (fun e => e.2.2.matrix) =
        (l.find? fun e => decide (e.1 = x ∧ e.2.1 = y)).map fun e => e.2.2.matrix := by
  intro l
  induction l with
  | nil => rfl
  | cons e rest ih =>
    rw [mapAttr, List.map_cons, List.find?, List.find?]
    dsimp only
    by_cases hc : e.1 = x ∧ e.2.1 = y
    · rw [decide_eq_true hc]
      rfl
    · rw [decide_eq_false hc]
      dsimp only
      exact ih

theorem lookupD_matrix_mapAttr {s : TransformForest ν γ} {now : ℚ}
    {ef2 : EnforcedForest ν γ} (hd : ef2.dedges = mapAttr s now s.transforms.dedges)
    (x y : ν) :
    (lookupD ef2 x y).map (fun d => d.matrix) =
      (lookupD s.transforms x y).map fun d => d.matrix := by
  rw [lookupD, lookupD, hd, Option.map_map, Option.map_map]
  exact find_matrix_mapAttr s now x y s.transforms.dedges

/-- Two forests whose directed lookups agree on the matrix component
contribute the same matrix for every path step. -/
theorem edgeMat_congr {ef ef2 : EnforcedForest ν γ}
    (hl : ∀ x y, (lookupD ef2 x y).map (fun d => d.matrix) =
      (lookupD ef x y).map fun d => d.matrix) (e : ν × ν) :
    edgeMat ef2 e = edgeMat ef e := by
  rw [edgeMat, edgeMat, get_edge_data_direction, get_edge_data_direction]
  have h1 := hl e.1 e.2
  have h2 := hl e.2 e.1
  cases hx : lookupD ef2 e.1 e.2 with
  | some d =>
    rw [hx] at h1
    cases hy : lookupD ef e.1 e.2 with
    | none =>
      rw [hy] at h1
      exact absurd h1 (by simp)
    | some d2 =>
      rw [hy] at h1
      simp only [Option.map_some', Option.some.injEq] at h1
      dsimp only
      rw [if_neg (by decide), if_neg (by decide), h1]
  | none =>
    rw [hx] at h1
    cases hy : lookupD ef e.1 e.2 with
    | some d2 =>
      rw [hy] at h1
      exact absurd h1 (by simp)
    | none =>
      dsimp only
      cases hx2 : lookupD ef2 e.2 e.1 with
      | some d =>
        rw [hx2] at h2
        cases hy2 : lookupD ef e.2 e.1 with
        | none =>
          rw [hy2] at h2
          exact absurd h2 (by simp)
        | some d2 =>
          rw [hy2] at h2
          simp only [Option.map_some', Option.some.injEq] at h2
          dsimp only
          rw [if_pos (by decide), if_pos (by decide), h2]
      | none =>
        rw [hx2] at h2
        cases hy2 : lookupD ef e.2 e.1 with
        | some d2 =>
          rw [hy2] at h2
          exact absurd h2 (by simp)
        | none => rfl

theorem collectE_congr {ef ef2 : EnforcedForest ν γ}
    (h : ∀ e : ν × ν, edgeMat ef2 e = edgeMat ef e) :
    ∀ l : List (ν × ν), collectE ef2 l = collectE ef l := by
  intro l
  induction l with
  | nil => rfl
  | cons e rest ih => rw [collectE, collectE, h e, ih]

/-- On a forest, two coherent states with the same undirected graph, the
same node set and matrix-identical directed lookups produce the same
`get` matrix (and the same errors); only the geometry can differ. -/
theorem computeGet_matrix_congr {ef ef2 : EnforcedForest ν γ}
    (hnsl2 : NSL ef2.uedges) (hnsl : NSL ef.uedges)
    (husim : usim ef2.uedges = usim ef.uedges)
    (hacy : (usim ef2.uedges).IsAcyclic)
    (hnodes : ∀ n, n ∈ ef2.unodes ↔ n ∈ ef.unodes)
    (hl : ∀ x y, (lookupD ef2 x y).map (fun d => d.matrix) =
      (lookupD ef x y).map fun d => d.matrix)
    (x y : ν) :
    (computeGet ef2 x y).map (fun r => r.1) = (computeGet ef x y).map fun r => r.1 := by
  rw [computeGet, computeGet]
  rw [findPathNX_ext hnsl2 hnsl husim hacy hnodes]
  cases hp : findPathNX ef.uedges ef.unodes x y with
  | none => rfl
  | some p =>
    dsimp only
    rw [collectE_congr (edgeMat_congr hl) (pairsOf p)]
    cases hc : collectE ef (pairsOf p) with
    | error err => rfl
    | ok ms => rfl

/-- C6 (amended): on a coherent forest, replaying `to_edgelist` through
`from_edgelist` into a fresh forest with the same base frame raises no
error, and the rebuilt forest's `get` agrees with the original's on the
matrix component for every pair of frames, errors included.  The
geometry component can differ (see the counterexample): node geometry
survives the round trip only through incoming edges. -/
theorem C6_amended {s : TransformForest ν γ} (hinv : TFInv s) (now : ℚ) (st : Bool) :
    ∃ t2 : TransformForest ν γ,
      from_edgelist (freshTF s.base_frame) now (to_edgelist s) st = (t2, none) ∧
      ∀ (ft : ν) (ffrom : Option ν),
        (getVal t2 ft ffrom).map (fun r => r.1) =
          (getVal s ft ffrom).map fun r => r.1 := by
  obtain ⟨t2, hrep, h1, h2, h3, h4, h5, h6, h7⟩ :=
    replay_invariant hinv.efInv now st s.transforms.dedges []
      (freshTF s.base_frame) (List.nil_append _).symm rfl rfl rfl rfl rfl rfl rfl
  rw [List.nil_append] at h1 h2 h3 h4
  refine ⟨t2, ?_, ?_⟩
  · rw [to_edgelist_eq_map]
    exact hrep
  · intro ft ffrom
    have hnsl2 : NSL t2.transforms.uedges := by
      rw [h2]
      intro e2 he2
      obtain ⟨e3, he3, rfl⟩ := List.mem_map.mp he2
      exact hinv.efInv.nslD e3 he3
    have husim : usim t2.transforms.uedges = usim s.transforms.uedges := by
      rw [h2, usim, usim]
      congr 1
      ext z
      rw [Set.mem_setOf_eq, Set.mem_setOf_eq, pairList_mapPr]
      exact hinv.efInv.sync z
    have hnodes : ∀ n, n ∈ t2.transforms.unodes ↔ n ∈ s.transforms.unodes := by
      intro n
      rw [h4, mem_nodesFold]
      constructor
      · rintro (h | ⟨e, he, hor⟩)
        · exact absurd h (List.not_mem_nil n)
        · have hz : Sym2.mk (e.1, e.2.1) ∈ pairList s.transforms.uedges :=
            (hinv.efInv.sync _).mp (List.mem_map.mpr ⟨e, he, rfl⟩)
          rcases mem_pairList.mp hz with hm | hm
          · rcases hor with rfl | rfl
            · exact (hinv.efInv.endsU _ hm).1
            · exact (hinv.efInv.endsU _ hm).2
          · rcases hor with rfl | rfl
            · exact (hinv.efInv.endsU _ hm).2
            · exact (hinv.efInv.endsU _ hm).1
      · intro hn
        obtain ⟨e, he, hor⟩ := hinv.efInv.noIso n hn
        have hz : Sym2.mk (e.1, e.2) ∈ pairListD s.transforms.dedges :=
          (hinv.efInv.sync _).mpr (mem_pairList.mpr (Or.inl he))
        rw [pairListD] at hz
        obtain ⟨d, hd, hdz⟩ := List.mem_map.mp hz
        refine Or.inr ⟨d, hd, ?_⟩
        rcases Sym2.mk_eq_mk_iff.mp hdz with h9 | h9
        · rw [Prod.ext_iff] at h9
          rcases hor with rfl | rfl
          · exact Or.inl h9.1.symm
          · exact Or.inr h9.2.symm
        · rw [Prod.ext_iff] at h9
          rcases hor with rfl | rfl
          · exact Or.inr h9.2.symm
          · exact Or.inl h9.1.symm
    have hl : ∀ x y, (lookupD t2.transforms x y).map (fun d => d.matrix) =
        (lookupD s.transforms x y).map fun d => d.matrix :=
      fun x y => lookupD_matrix_mapAttr h1 x y
    have hacy2 : (usim t2.transforms.uedges).IsAcyclic := by
      rw [husim]
      exact hinv.efInv.acyclic
    have hpt2 : ∀ (k : ν × ν) (p : List ν), (k, p) ∈ t2.paths →
        findPathNX t2.transforms.uedges t2.transforms.unodes k.1 k.2 = some p := by
      intro k p h
      rw [h5] at h
      simp at h
    have hct2 : ∀ (k : ν × ν) (r : M4 × Option γ), (k, r) ∈ t2.cache →
        computeGet t2.transforms k.1 k.2 = Except.ok r := by
      intro k r h
      rw [h6] at h
      simp at h
    rw [get_eq_computeGet hpt2 hct2, get_eq_computeGet hinv.pathsOK hinv.cacheOK, h7]
    exact computeGet_matrix_congr hnsl2 hinv.efInv.nslU husim hacy2 hnodes hl
      (ffrom.getD s.base_frame) ft

theorem c6get : getVal c6s3 2 (some 3) = Except.ok ((1 : M4), some 7) := by
  rw [get_eq_computeGet
    (fun k p h => by rw [show c6s3.paths = [] from rfl] at h; simp at h)
    (fun k r h => by rw [show c6s3.cache = [] from rfl] at h; simp at h)]
  simp only [Option.getD_some]
  rw [computeGet]
  rw [show findPathNX c6s3.transforms.uedges c6s3.transforms.unodes 3 2 = some [3, 2]
    from rfl]
  dsimp only
  rw [show pairsOf ([3, 2] : List ℕ) = [(3, 2)] from rfl]
  rw [collectE_cons_ok
    (by rw [show edgeMat c6s3.transforms (3, 2) = mInvE 1 from rfl, mInvE_one])
    (show collectE c6s3.transforms [] = Except.ok [] from rfl)]
  rfl

theorem c6rget : getVal c6r 2 (some 3) = Except.ok ((1 : M4), none) := by
  rw [get_eq_computeGet
    (fun k p h => by rw [show c6r.paths = [] from rfl] at h; simp at h)
    (fun k r h => by rw [show c6r.cache = [] from rfl] at h; simp at h)]
  simp only [Option.getD_some]
  rw [computeGet]
  rw [show findPathNX c6r.transforms.uedges c6r.transforms.unodes 3 2 = some [3, 2]
    from rfl]
  dsimp only
  rw [show pairsOf ([3, 2] : List ℕ) = [(3, 2)] from rfl]
  rw [collectE_cons_ok
    (by rw [show edgeMat c6r.transforms (3, 2) = mInvE 1 from rfl, mInvE_one])
    (show collectE c6r.transforms [] = Except.ok [] from rfl)]
  rfl

/-- C6 counterexample: replaying the exported edge list of `c6s3` into a
fresh forest succeeds, but `get(2, 3)` returns the geometry `7` on the
original forest and no geometry on the rebuilt one, so the round trip
does not reproduce the `get` results exactly as the claim states.  (The
matrix components do agree; see the amended theorem.) -/
theorem C6_counterexample :
    (from_edgelist (freshTF 0 : TransformForest ℕ ℕ) 1 (to_edgelist c6s3) true).2 =
      none ∧
    getVal c6s3 2 (some 3) = Except.ok ((1 : M4), some 7) ∧
    getVal c6r 2 (some 3) = Except.ok ((1 : M4), none) :=
  ⟨by decide, c6get, c6rget⟩

theorem C6_amended_witness :
    ∃ t2 : TransformForest ℕ ℕ,
      from_edgelist (freshTF c2s1.base_frame) 1 (to_edgelist c2s1) true = (t2, none) ∧
      ∀ (ft : ℕ) (ffrom : Option ℕ),
        (getVal t2 ft ffrom).map (fun r => r.1) =
          (getVal c2s1 ft ffrom).map fun r => r.1 :=
  C6_amended (TFInv_of_empty (EFInvB_sound (by decide)) rfl rfl) 1 true

end TrimeshTransforms
